import Mathlib

/-!
Shallow embedding of the trading_data_api repository core
(`src/data_structures/avl.py` and `src/config/db.py`) and proofs of the
specification claims about it.

Python floats are modelled as exact rationals (`ℚ`); the `float('inf')` /
`float('-inf')` sentinels used for the running minimum and maximum are
modelled as `⊤ : WithTop ℚ` and `⊥ : WithBot ℚ`.  Python exceptions are
modelled with an explicit error type and `Except` / error-returning pairs.
-/

/-! ## Constants (`src/config/consts.py`) -/

def MAX_TRADE_POINTS_COUNT : ℕ := 10000

def MAX_SYMBOLS_COUNT : ℕ := 10

def MAX_SYMBOLS_LENGTH : ℕ := 4

def MAX_K_VALUE : ℤ := 8

/-! ## The tree of Nodes (`src/data_structures/avl.py`, class `Node`)

A value of type `AVLNode` models an `Optional[Node]`: `leaf` is Python `None`,
and `node left value count height right` is a `Node` object with those five
fields (`count` is the multiplicity of the key, `height` the stored height).
-/

inductive AVLNode where
  | leaf : AVLNode
  | node (left : AVLNode) (value : ℚ) (count : ℕ) (height : ℕ) (right : AVLNode)
deriving DecidableEq, Repr

/-- Python `AVLTree._get_height`: the stored height of a node, `0` for `None`. -/
def get_height : AVLNode → ℕ
  | .leaf => 0
  | .node _ _ _ h _ => h

/-- Python `AVLTree._get_balance`: stored height of the left child minus stored
height of the right child (as an integer). -/
def get_balance : AVLNode → ℤ
  | .leaf => 0
  | .node l _ _ _ r => (get_height l : ℤ) - (get_height r : ℤ)

/-- Python `AVLTree._left_rotate`.  The Python code reads `z.right` unconditionally;
when `z` has no right child it would raise `AttributeError`.  That situation
never arises from `_insert` (the rotation is only invoked on a node whose
right subtree has stored height ≥ 2), so the fallback arm returns the input
unchanged. -/
def left_rotate : AVLNode → AVLNode
  | .node l x c _ (.node rl y cy _ rr) =>
      let z := AVLNode.node l x c (1 + max (get_height l) (get_height rl)) rl
      AVLNode.node z y cy (1 + max (get_height z) (get_height rr)) rr
  | t => t

/-- Python `AVLTree._right_rotate`, with the same convention as `left_rotate` for
the arm Python could never return from. -/
def right_rotate : AVLNode → AVLNode
  | .node (.node ll y cy _ lr) x c _ r =>
      let z := AVLNode.node lr x c (1 + max (get_height lr) (get_height r)) r
      AVLNode.node ll y cy (1 + max (get_height ll) (get_height z)) z
  | t => t

/-- The tail of `AVLTree._insert` after the recursive call: the node's new
height, the balance factor, and the four rotation cases selected by
comparing the inserted value against the child key.  `l` and `r` are the
node's children after the recursive insertion, `x`/`c` its key and count,
`v` the inserted value.  The `leaf` arms of the inner matches are where
Python would dereference a `None` child; they never arise from `_insert`
on a well-formed tree and return the unrotated node. -/
def fixup (l : AVLNode) (x : ℚ) (c : ℕ) (r : AVLNode) (v : ℚ) : AVLNode :=
  if (get_height l : ℤ) - (get_height r : ℤ) > 1 then
    match l with
    | .leaf => AVLNode.node l x c (1 + max (get_height l) (get_height r)) r
    | .node _ lv _ _ _ =>
      if v < lv then
        right_rotate (AVLNode.node l x c (1 + max (get_height l) (get_height r)) r)
      else
        right_rotate (AVLNode.node (left_rotate l) x c (1 + max (get_height l) (get_height r)) r)
  else if (get_height l : ℤ) - (get_height r : ℤ) < -1 then
    match r with
    | .leaf => AVLNode.node l x c (1 + max (get_height l) (get_height r)) r
    | .node _ rv _ _ _ =>
      if rv < v then
        left_rotate (AVLNode.node l x c (1 + max (get_height l) (get_height r)) r)
      else
        left_rotate (AVLNode.node l x c (1 + max (get_height l) (get_height r)) (right_rotate r))
  else AVLNode.node l x c (1 + max (get_height l) (get_height r)) r

/-- Python `AVLTree._insert`: recursive insertion.  New keys get a fresh node of
count 1 and height 1; an equal key only increments the node's count and
returns immediately (no height update, no rebalancing); otherwise the
height/balance/rotation tail (`fixup`) runs on the way back up. -/
def insertTree : AVLNode → ℚ → AVLNode
  | .leaf, v => .node .leaf v 1 1 .leaf
  | .node l x c h r, v =>
    if v < x then fixup (insertTree l v) x c r v
    else if x < v then fixup l x c (insertTree r v) v
    else .node l x (c + 1) h r

/-- Python `AVLTree._inorder_traversal` / `get_all_values` on the node level:
in-order walk emitting each node's key `count` times. -/
def toList : AVLNode → List ℚ
  | .leaf => []
  | .node l x c _ r => toList l ++ (List.replicate c x ++ toList r)

/-- In-order list of node keys, one entry per node (ignoring counts). -/
def inorderKeys : AVLNode → List ℚ
  | .leaf => []
  | .node l x _ _ r => inorderKeys l ++ (x :: inorderKeys r)

/-- The actual height of the tree, ignoring the stored `height` fields. -/
def realHeight : AVLNode → ℕ
  | .leaf => 0
  | .node l _ _ _ r => 1 + max (realHeight l) (realHeight r)

/-- Every stored `height` field equals one plus the maximum of the children's
stored heights (so, inductively, of their actual heights). -/
def HeightOk : AVLNode → Prop
  | .leaf => True
  | .node l _ _ h r => HeightOk l ∧ HeightOk r ∧ h = 1 + max (get_height l) (get_height r)

/-- Every node's two children differ in stored height by at most one. -/
def BalancedT : AVLNode → Prop
  | .leaf => True
  | .node l _ _ _ r => BalancedT l ∧ BalancedT r ∧
      (get_height l : ℤ) - (get_height r : ℤ) ≤ 1 ∧
      (get_height r : ℤ) - (get_height l : ℤ) ≤ 1

/-- All keys of the tree lie strictly between the optional bounds `lo` and
`hi`, and the same holds recursively (the binary-search-tree ordering). -/
def Bnd : Option ℚ → Option ℚ → AVLNode → Prop
  | _, _, .leaf => True
  | lo, hi, .node l x _ _ r =>
      (∀ a ∈ lo, a < x) ∧ (∀ b ∈ hi, x < b) ∧ Bnd lo (some x) l ∧ Bnd (some x) hi r

/-- Binary-search-tree ordering with no outer bounds. -/
def Ordered (t : AVLNode) : Prop := Bnd none none t

/-- Every node's multiplicity count is at least one. -/
def PosCounts : AVLNode → Prop
  | .leaf => True
  | .node l _ c _ r => PosCounts l ∧ PosCounts r ∧ 1 ≤ c

/-- After an insertion that increased the subtree height, the root key is not
the inserted value and the root balance factor leans toward the side the
value was inserted on.  (Used to justify the code selecting single versus
double rotation by comparing the inserted value with the child key.) -/
def GrowSpec (v : ℚ) : AVLNode → Prop
  | .leaf => False
  | .node l y _ _ r => y ≠ v ∧
      (v < y → (get_height l : ℤ) - (get_height r : ℤ) = 1) ∧
      (y < v → (get_height l : ℤ) - (get_height r : ℤ) = -1)

/-- Increment the multiplicity of the node holding key `v`, following the
search path; every other field of every node is kept unchanged.  (This is
what the equal-key branch of `_insert` amounts to when the search key is
already present.) -/
def incCount : AVLNode → ℚ → AVLNode
  | .leaf, _ => .leaf
  | .node l x c h r, v =>
    if v < x then .node (incCount l v) x c h r
    else if x < v then .node l x c h (incCount r v)
    else .node l x (c + 1) h r

/-- Erase the multiplicity counts (set them all to 1), keeping structure,
keys and stored heights: the "shape" of the tree. -/
def stripCounts : AVLNode → AVLNode
  | .leaf => .leaf
  | .node l x _ h r => .node (stripCounts l) x 1 h (stripCounts r)

/-- Total multiplicity stored for key `w` over the whole tree. -/
def multAt : AVLNode → ℚ → ℕ
  | .leaf, _ => 0
  | .node l x c _ r, w => (if w = x then c else 0) + multAt l w + multAt r w

/-- Number of nodes whose key is `w`. -/
def nodesWithKey : AVLNode → ℚ → ℕ
  | .leaf, _ => 0
  | .node l x _ _ r, w => (if w = x then 1 else 0) + nodesWithKey l w + nodesWithKey r w

/-! ## Statistics results and Python errors -/

/-- The dictionary returned by `AVLTree.get_stats` and `Database.get_stats`:
six entries, each either a value or Python `None`.  In the empty-tree case
all entries are `None`. -/
structure StatsResult where
  min : Option ℚ
  max : Option ℚ
  last : Option ℚ
  avg : Option ℚ
  var : Option ℚ
  size : Option ℕ
deriving DecidableEq, Repr

def emptyStats : StatsResult :=
  { min := none, max := none, last := none, avg := none, var := none, size := none }

deriving instance DecidableEq for Except

/-- Python exceptions that the embedded code can raise. -/
inductive PyErr where
  /-- Python `ValueError` with its message. -/
  | valueError (msg : String)
  /-- Python `TypeError` (raised by a list slice with a float index). -/
  | typeError
  /-- Python `ValueError` raised by `min()` / `max()` on an empty sequence. -/
  | emptySequence
deriving DecidableEq, Repr

/-! ## The `AVLTree` class (`src/data_structures/avl.py`) -/

structure AVLTree where
  root : AVLNode
  last_inserted_value : Option ℚ
  min_value : WithTop ℚ
  max_value : WithBot ℚ
  sum_values : ℚ
  count_values : ℕ
  mean_value : ℚ
  sum_of_squares : ℚ
  total_size : ℕ
  insertion_order : List ℚ
  stats_cache : Option StatsResult
  cache_last_n : Option ℤ
deriving DecidableEq, Repr

/-- Python `AVLTree.__init__`. -/
def emptyAVL : AVLTree :=
  { root := .leaf
    last_inserted_value := none
    min_value := ⊤
    max_value := ⊥
    sum_values := 0
    count_values := 0
    mean_value := 0
    sum_of_squares := 0
    total_size := 0
    insertion_order := []
    stats_cache := none
    cache_last_n := none }

/-- Python `AVLTree.insert`: insert into the tree, append to the insertion log,
update the running statistics (the Welford step guarded by
`count_values > 1` evaluated after the increment), and invalidate the
cache. -/
def AVLTree.insert (t : AVLTree) (value : ℚ) : AVLTree :=
  let new_count : ℕ := t.count_values + 1
  let new_sum : ℚ := t.sum_values + value
  let new_mean : ℚ := new_sum / (new_count : ℚ)
  { root := insertTree t.root value
    last_inserted_value := some value
    insertion_order := t.insertion_order ++ [value]
    min_value := min t.min_value (value : WithTop ℚ)
    max_value := max t.max_value (value : WithBot ℚ)
    sum_values := new_sum
    count_values := new_count
    mean_value := new_mean
    sum_of_squares :=
      if 1 < new_count then
        t.sum_of_squares + (value - t.mean_value) * (value - new_mean)
      else t.sum_of_squares
    total_size := t.total_size + 1
    stats_cache := none
    cache_last_n := none }

/-- Python `values[-n:]` for an integer `n ≠ 0` (the slice index `-n` is
clamped into the list as Python does: for `n > 0` it keeps the last
`min(n, len)` elements, for `n < 0` it drops the first `min(-n, len)`). -/
def pySliceLast (l : List ℚ) (n : ℤ) : List ℚ :=
  if 0 ≤ n then l.drop (l.length - n.toNat) else l.drop (-n).toNat

/-- The window selection of `AVLTree.get_stats`:
`list(self.insertion_order)[-last_n:] if last_n else list(self.insertion_order)`
(`last_n` of `None` or `0` is falsy and yields the whole log). -/
def windowValues (t : AVLTree) (last_n : Option ℤ) : List ℚ :=
  match last_n with
  | none => t.insertion_order
  | some n => if n = 0 then t.insertion_order else pySliceLast t.insertion_order n

/-- The compute-and-cache path of `AVLTree.get_stats` (everything after the
cache check): slice the insertion log, compute the six aggregates in exact
arithmetic, store the result in the cache.  `min()` on the empty slice is a
Python `ValueError`, returned as `.error` with the tree unmodified. -/
def computeStats (t : AVLTree) (last_n : Option ℤ) : Except PyErr StatsResult × AVLTree :=
  match windowValues t last_n with
  | [] => (.error .emptySequence, t)
  | v :: rest =>
    let min_value : ℚ := rest.foldl min v
    let max_value : ℚ := rest.foldl max v
    let last_value : ℚ := (v :: rest).getLast (List.cons_ne_nil v rest)
    let avg_value : ℚ := (v :: rest).sum / ((v :: rest).length : ℚ)
    let variance : ℚ :=
      if 1 < (v :: rest).length then
        ((v :: rest).map (fun x => (x - avg_value) ^ 2)).sum / ((v :: rest).length : ℚ)
      else 0
    let stats : StatsResult :=
      { min := some min_value
        max := some max_value
        last := some last_value
        avg := some avg_value
        var := some variance
        size := some (v :: rest).length }
    (.ok stats, { t with stats_cache := some stats, cache_last_n := last_n })

/-- Python `AVLTree.get_stats`: return the all-`None` result on an empty series;
otherwise serve the cached result when the cache is filled and was computed
for exactly the same `last_n`; otherwise compute and cache. -/
def AVLTree.get_stats (t : AVLTree) (last_n : Option ℤ) : Except PyErr StatsResult × AVLTree :=
  if t.count_values = 0 then (.ok emptyStats, t)
  else
    match t.stats_cache with
    | some cached => if t.cache_last_n = last_n then (.ok cached, t) else computeStats t last_n
    | none => computeStats t last_n

/-- Python `AVLTree.get_all_values`: ascending export. -/
def AVLTree.get_all_values (t : AVLTree) : List ℚ := toList t.root

/-- Fold a list of values through `AVLTree.insert`, starting empty. -/
def buildAVL (vs : List ℚ) : AVLTree := vs.foldl AVLTree.insert emptyAVL

/-- Fold a list of values through `insertTree`, starting from the empty tree. -/
def buildRoot (vs : List ℚ) : AVLNode := vs.foldl insertTree .leaf

/-! ## The `Database` class (`src/config/db.py`)

The Python `data_store` dict is modelled as an association list in insertion
order (Python dicts preserve insertion order; a fresh key is appended at the
end).  Raised exceptions are modelled by returning the error together with
the state at the moment of the raise, so "the store is unchanged on error"
is a provable statement about the embedding, mirroring that every `raise`
in the source happens before any mutation.
-/

/-- A value arriving in an `add_batch` request body: either a number (int and
float collapse to `ℚ`) or something non-numeric. -/
inductive PyVal where
  | num (val : ℚ)
  | nonNumeric
deriving DecidableEq, Repr

/-- The numeric content of a `PyVal`; only ever used after validation has
ruled out `nonNumeric`. -/
def PyVal.toQ : PyVal → ℚ
  | .num q => q
  | .nonNumeric => 0

structure Database where
  data_store : List (String × AVLTree)
deriving DecidableEq

/-- Dict lookup `data_store[symbol]` / `symbol in data_store`. -/
def storeLookup : List (String × AVLTree) → String → Option AVLTree
  | [], _ => none
  | (s, t) :: rest, sym => if s = sym then some t else storeLookup rest sym

/-- Dict write `data_store[symbol] = tree`: overwrite in place if the key
exists, else append the new key at the end. -/
def storeUpdate : List (String × AVLTree) → String → AVLTree → List (String × AVLTree)
  | [], sym, t => [(sym, t)]
  | (s, u) :: rest, sym, t =>
      if s = sym then (sym, t) :: rest else (s, u) :: storeUpdate rest sym t

/-- Dict delete `del data_store[symbol]`. -/
def storeErase : List (String × AVLTree) → String → List (String × AVLTree)
  | [], _ => []
  | (s, u) :: rest, sym => if s = sym then rest else (s, u) :: storeErase rest sym

/-- The per-value validation loop of `Database.add_batch`: for each value in
order, first the `isinstance` check, then the negativity check; the first
failure raises. -/
def firstValueError : List PyVal → Option PyErr
  | [] => none
  | .nonNumeric :: _ => some (.valueError "All values must be valid numbers.")
  | .num q :: rest =>
      if q < 0 then some (.valueError "All values must be greater than 0.")
      else firstValueError rest

/-- Python `Database.add_batch`: the four batch-level validations, then the
per-value validation loop, and only then the insertion loop over a fresh or
existing `AVLTree`. -/
def Database.add_batch (db : Database) (symbol : String) (values : List PyVal) :
    Except PyErr String × Database :=
  if symbol.length > MAX_SYMBOLS_LENGTH then
    (.error (.valueError "Symbol length must not exceed 4 characters."), db)
  else if MAX_SYMBOLS_COUNT ≤ db.data_store.length ∧ storeLookup db.data_store symbol = none then
    (.error (.valueError "Symbols limit reached (10)."), db)
  else if values.length = 0 then
    (.error (.valueError "The list of trading values must contain at least 1 item."), db)
  else if values.length > MAX_TRADE_POINTS_COUNT then
    (.error (.valueError ("The list should have at most 10000 items, not "
        ++ toString values.length ++ ".")), db)
  else
    match firstValueError values with
    | some e => (.error e, db)
    | none =>
      let bst : AVLTree := (storeLookup db.data_store symbol).getD emptyAVL
      let bst2 : AVLTree := values.foldl (fun t v => t.insert v.toQ) bst
      (.ok "Batch added successfully", ⟨storeUpdate db.data_store symbol bst2⟩)

/-- The six-field result dict assembled by `Database.get_stats` out of six
separate `bst.get_stats(last_n)` calls (the `.get(...)` of call `i` reads
field `i`), threading the cache state through the calls. -/
def sixStatsCalls (bst : AVLTree) (last_n : ℤ) : Except PyErr StatsResult × AVLTree :=
  match bst.get_stats (some last_n) with
  | (.error e, t1) => (.error e, t1)
  | (.ok s1, t1) =>
    match t1.get_stats (some last_n) with
    | (.error e, t2) => (.error e, t2)
    | (.ok s2, t2) =>
      match t2.get_stats (some last_n) with
      | (.error e, t3) => (.error e, t3)
      | (.ok s3, t3) =>
        match t3.get_stats (some last_n) with
        | (.error e, t4) => (.error e, t4)
        | (.ok s4, t4) =>
          match t4.get_stats (some last_n) with
          | (.error e, t5) => (.error e, t5)
          | (.ok s5, t5) =>
            match t5.get_stats (some last_n) with
            | (.error e, t6) => (.error e, t6)
            | (.ok s6, t6) =>
              (.ok { min := s1.min, max := s2.max, last := s3.last,
                     avg := s4.avg, var := s5.var, size := s6.size }, t6)

/-- Python `Database.get_stats`: reject `k > MAX_K_VALUE` (with the not-found
message), reject an unknown symbol, then `last_n = 10 ** k` and six
`bst.get_stats(last_n)` calls.  For `k < 0` Python computes `10 ** k` as a
float, and the list slice inside `AVLTree.get_stats` then raises
`TypeError` — unless the series is empty, in which case the all-`None`
result is returned before the slice is reached. -/
def Database.get_stats (db : Database) (symbol : String) (k : ℤ) :
    Except PyErr StatsResult × Database :=
  if k > MAX_K_VALUE then (.error (.valueError "Symbol not found"), db)
  else
    match storeLookup db.data_store symbol with
    | none => (.error (.valueError "Symbol not found"), db)
    | some bst =>
      if k < 0 then
        if bst.count_values = 0 then (.ok emptyStats, db)
        else (.error .typeError, db)
      else
        let last_n : ℤ := (10 : ℤ) ^ k.toNat
        match sixStatsCalls bst last_n with
        | (.error e, t) => (.error e, ⟨storeUpdate db.data_store symbol t⟩)
        | (.ok s, t) => (.ok s, ⟨storeUpdate db.data_store symbol t⟩)

/-- Python `Database.get_values`. -/
def Database.get_values (db : Database) (symbol : String) :
    Except PyErr (List ℚ) × Database :=
  match storeLookup db.data_store symbol with
  | none => (.error (.valueError "Symbol not found"), db)
  | some bst => (.ok bst.get_all_values, db)

/-- Python `Database.get_symbols`. -/
def Database.get_symbols (db : Database) : List String := db.data_store.map Prod.fst

/-- Python `Database.clear`. -/
def Database.clear (_db : Database) : Database := ⟨[]⟩

/-- Python `Database.delete_symbol`. -/
def Database.delete_symbol (db : Database) (symbol : String) :
    Except PyErr String × Database :=
  match storeLookup db.data_store symbol with
  | some _ => (.ok ("Symbol " ++ symbol ++ " deleted successfully"),
               ⟨storeErase db.data_store symbol⟩)
  | none => (.error (.valueError ("Symbol " ++ symbol ++ " not found")), db)

/-! ## Reachable database states (for the implicit store invariant) -/

/-- One call against the public `Database` interface. -/
inductive DbOp where
  | addBatch (symbol : String) (values : List PyVal)
  | getStats (symbol : String) (k : ℤ)
  | getValues (symbol : String)
  | deleteSymbol (symbol : String)
  | clear
  | getSymbols

/-- The state transition of one call (outputs discarded; a raised error
leaves the state as it was at the raise). -/
def execOp (db : Database) : DbOp → Database
  | .addBatch s vs => (db.add_batch s vs).2
  | .getStats s k => (db.get_stats s k).2
  | .getValues s => (db.get_values s).2
  | .deleteSymbol s => (db.delete_symbol s).2
  | .clear => db.clear
  | .getSymbols => db

/-- Database states reachable from the freshly initialized singleton by a
sequence of public calls. -/
def Reachable (db : Database) : Prop := ∃ ops : List DbOp, db = ops.foldl execOp ⟨[]⟩

/-- The internal consistency facts about a stored series that make the
empty-series branches unreachable: the insert-call count matches the
insertion log and the in-order export, and at least one value was
inserted. -/
def GoodTree (t : AVLTree) : Prop :=
  t.count_values = t.insertion_order.length ∧
  t.get_all_values.length = t.count_values ∧
  1 ≤ t.count_values

/-! ## Spec-side definitions (from the specification text, for refinement
statements) -/

/-- Modelled from the spec: "the last `min(10^k, n)` inserted values in
arrival order" — take the last `m` elements of the log. -/
def lastWindow (vs : List ℚ) (m : ℕ) : List ℚ := (vs.reverse.take m).reverse

/-- Modelled from the spec: population variance, "variance computed by
dividing the sum of squared deviations by `n`". -/
def popVar (vs : List ℚ) : ℚ :=
  ((vs.map (fun x => (x - vs.sum / (vs.length : ℚ)) ^ 2)).sum) / (vs.length : ℚ)

/-- The aggregate facts delivered by an honestly computed `StatsResult` for
the window `w` (spec side: membership/bound characterisation of min and max,
last element, arithmetic mean, population variance, window size). -/
def WindowSpec (s : StatsResult) (w : List ℚ) : Prop :=
  (∃ m : ℚ, s.min = some m ∧ m ∈ w ∧ ∀ x ∈ w, m ≤ x) ∧
  (∃ M : ℚ, s.max = some M ∧ M ∈ w ∧ ∀ x ∈ w, x ≤ M) ∧
  s.last = w.getLast? ∧
  s.avg = some (w.sum / (w.length : ℚ)) ∧
  s.var = some (popVar w) ∧
  s.size = some w.length

/-- The bookkeeping part of `GoodTree`: insert-call count = insertion-log
length = ascending-export length. -/
def WFCounts (t : AVLTree) : Prop :=
  t.count_values = t.insertion_order.length ∧
  t.get_all_values.length = t.count_values

/-- A filled cache always has a filled `size` field (so it is never the
all-`None` empty result). -/
def CacheSizeOK (t : AVLTree) : Prop :=
  ∀ s : StatsResult, t.stats_cache = some s → s.size ≠ none

/-- Every stored series satisfies the bookkeeping and non-emptiness facts. -/
def StoreGood (db : Database) : Prop :=
  ∀ p ∈ db.data_store, WFCounts p.2 ∧ 1 ≤ p.2.count_values ∧ CacheSizeOK p.2

/-- Balance stated over actual subtree heights (spec side). -/
def BalancedReal : AVLNode → Prop
  | .leaf => True
  | .node l _ _ _ r => BalancedReal l ∧ BalancedReal r ∧
      (realHeight l : ℤ) - (realHeight r : ℤ) ≤ 1 ∧
      (realHeight r : ℤ) - (realHeight l : ℤ) ≤ 1

/-- Stored height fields computed from actual child heights (spec side). -/
def HeightFieldsReal : AVLNode → Prop
  | .leaf => True
  | .node l _ _ h r => HeightFieldsReal l ∧ HeightFieldsReal r ∧
      h = 1 + max (realHeight l) (realHeight r)

/-! ## Theorems.  First: rotations preserve the in-order traversal. -/

open List

theorem toList_left_rotate (t : AVLNode) : toList (left_rotate t) = toList t := by
  cases t with
  | leaf => rfl
  | node l x c h r =>
    cases r with
    | leaf => rfl
    | node rl y cy hy rr => simp [left_rotate, toList, List.append_assoc]

theorem toList_right_rotate (t : AVLNode) : toList (right_rotate t) = toList t := by
  cases t with
  | leaf => rfl
  | node l x c h r =>
    cases l with
    | leaf => rfl
    | node ll y cy hy lr => simp [right_rotate, toList, List.append_assoc]

theorem inorderKeys_left_rotate (t : AVLNode) : inorderKeys (left_rotate t) = inorderKeys t := by
  cases t with
  | leaf => rfl
  | node l x c h r =>
    cases r with
    | leaf => rfl
    | node rl y cy hy rr => simp [left_rotate, inorderKeys, List.append_assoc]

theorem inorderKeys_right_rotate (t : AVLNode) : inorderKeys (right_rotate t) = inorderKeys t := by
  cases t with
  | leaf => rfl
  | node l x c h r =>
    cases l with
    | leaf => rfl
    | node ll y cy hy lr => simp [right_rotate, inorderKeys, List.append_assoc]

theorem toList_fixup (l r : AVLNode) (x v : ℚ) (c : ℕ) :
    toList (fixup l x c r v) = toList l ++ (List.replicate c x ++ toList r) := by
  unfold fixup
  split
  · split
    · simp [toList]
    · split
      · rw [toList_right_rotate]; simp [toList]
      · rw [toList_right_rotate]; simp [toList, toList_left_rotate]
  · split
    · split
      · simp [toList]
      · split
        · rw [toList_left_rotate]; simp [toList]
        · rw [toList_left_rotate]; simp [toList, toList_right_rotate]
    · simp [toList]

theorem toList_insertTree (t : AVLNode) (v : ℚ) :
    toList (insertTree t v) ~ v :: toList t := by
  induction t with
  | leaf => simp [insertTree, toList]
  | node l x c h r ihl ihr =>
    simp only [insertTree]
    split
    · rw [toList_fixup, toList]
      exact ihl.append_right _
    · split
      · rw [toList_fixup, toList]
        calc toList l ++ (List.replicate c x ++ toList (insertTree r v))
            ~ toList l ++ (List.replicate c x ++ (v :: toList r)) :=
              List.Perm.append_left _ (List.Perm.append_left _ ihr)
          _ = (toList l ++ List.replicate c x) ++ (v :: toList r) := by
              simp [List.append_assoc]
          _ ~ v :: ((toList l ++ List.replicate c x) ++ toList r) := List.perm_middle
          _ = v :: (toList l ++ (List.replicate c x ++ toList r)) := by
              simp [List.append_assoc]
      · have hvx : v = x := le_antisymm (not_lt.mp (by assumption)) (not_lt.mp (by assumption))
        subst hvx
        rw [toList, toList]
        calc toList l ++ (List.replicate (c + 1) v ++ toList r)
            = (toList l ++ (v :: List.replicate c v)) ++ toList r := by
              simp [List.replicate_succ, List.append_assoc]
          _ = (toList l ++ [v]) ++ (List.replicate c v ++ toList r) := by
              simp [List.append_assoc]
          _ ~ v :: (toList l ++ (List.replicate c v ++ toList r)) := by
              have := @List.perm_middle ℚ v (toList l)
                (List.replicate c v ++ toList r)
              simpa [List.append_assoc] using this

theorem toList_buildRoot (vs : List ℚ) (t : AVLNode) :
    toList (vs.foldl insertTree t) ~ vs ++ toList t := by
  induction vs generalizing t with
  | nil => simp
  | cons v vs ih =>
    calc toList ((v :: vs).foldl insertTree t)
        = toList (vs.foldl insertTree (insertTree t v)) := rfl
      _ ~ vs ++ toList (insertTree t v) := ih _
      _ ~ vs ++ (v :: toList t) := List.Perm.append_left _ (toList_insertTree t v)
      _ ~ v :: (vs ++ toList t) := List.perm_middle

/-! ## Rotations and insertion preserve the binary-search-tree ordering. -/

theorem bnd_left_rotate {lo hi : Option ℚ} {t : AVLNode} (h : Bnd lo hi t) :
    Bnd lo hi (left_rotate t) := by
  cases t with
  | leaf => exact h
  | node l x c ht r =>
    cases r with
    | leaf => exact h
    | node rl y cy hy rr =>
      simp only [Bnd, left_rotate] at h ⊢
      obtain ⟨hlox, hhix, hl, hxy, hyhi, hrl, hrr⟩ := h
      have hxy' : x < y := hxy x rfl
      refine ⟨fun a ha => lt_trans (hlox a ha) hxy', hyhi, ⟨hlox, ?_, hl, hrl⟩, hrr⟩
      intro b hb
      cases hb
      exact hxy'

theorem bnd_right_rotate {lo hi : Option ℚ} {t : AVLNode} (h : Bnd lo hi t) :
    Bnd lo hi (right_rotate t) := by
  cases t with
  | leaf => exact h
  | node l x c ht r =>
    cases l with
    | leaf => exact h
    | node ll y cy hy lr =>
      simp only [Bnd, right_rotate] at h ⊢
      obtain ⟨hlox, hhix, ⟨hloy, hyx, hll, hlr⟩, hr⟩ := h
      have hyx' : y < x := hyx x rfl
      refine ⟨hloy, fun b hb => lt_trans hyx' (hhix b hb), hll, ⟨?_, hhix, hlr, hr⟩⟩
      intro a ha
      cases ha
      exact hyx'

theorem bnd_fixup {lo hi : Option ℚ} {l r : AVLNode} {x : ℚ} (c : ℕ) (v : ℚ)
    (hlox : ∀ a ∈ lo, a < x) (hhix : ∀ b ∈ hi, x < b)
    (hl : Bnd lo (some x) l) (hr : Bnd (some x) hi r) :
    Bnd lo hi (fixup l x c r v) := by
  have hnode : ∀ hh : ℕ, Bnd lo hi (AVLNode.node l x c hh r) := fun hh =>
    show _ ∧ _ ∧ _ ∧ _ from ⟨hlox, hhix, hl, hr⟩
  unfold fixup
  split
  · split
    · exact hnode _
    · split
      · exact bnd_right_rotate (hnode _)
      · exact bnd_right_rotate
          (show _ ∧ _ ∧ _ ∧ _ from ⟨hlox, hhix, bnd_left_rotate hl, hr⟩)
  · split
    · split
      · exact hnode _
      · split
        · exact bnd_left_rotate (hnode _)
        · exact bnd_left_rotate
            (show _ ∧ _ ∧ _ ∧ _ from ⟨hlox, hhix, hl, bnd_right_rotate hr⟩)
    · exact hnode _

theorem bnd_insertTree {t : AVLNode} {v : ℚ} {lo hi : Option ℚ}
    (h : Bnd lo hi t) (hlo : ∀ a ∈ lo, a < v) (hhi : ∀ b ∈ hi, v < b) :
    Bnd lo hi (insertTree t v) := by
  induction t generalizing lo hi with
  | leaf => exact ⟨hlo, hhi, trivial, trivial⟩
  | node l x c ht r ihl ihr =>
    obtain ⟨hlox, hhix, hl, hr⟩ := show _ ∧ _ ∧ _ ∧ _ from h
    simp only [insertTree]
    split
    · refine bnd_fixup c v hlox hhix (ihl hl hlo ?_) hr
      intro b hb
      cases hb
      assumption
    · split
      · refine bnd_fixup c v hlox hhix hl (ihr hr ?_ hhi)
        intro a ha
        cases ha
        assumption
      · exact show _ ∧ _ ∧ _ ∧ _ from ⟨hlox, hhix, hl, hr⟩

/-- Every value of the full export is a key. -/
theorem mem_inorderKeys_of_mem_toList {t : AVLNode} {y : ℚ} (hy : y ∈ toList t) :
    y ∈ inorderKeys t := by
  induction t with
  | leaf => simp [toList] at hy
  | node l x c ht r ihl ihr =>
    simp only [toList, List.mem_append, List.mem_replicate] at hy
    simp only [inorderKeys, List.mem_append, List.mem_cons]
    rcases hy with hy | hy | hy
    · exact Or.inl (ihl hy)
    · exact Or.inr (Or.inl hy.2)
    · exact Or.inr (Or.inr (ihr hy))

/-- Every key of a bounded tree lies strictly inside the bounds. -/
theorem bnd_mem_keys {t : AVLNode} {lo hi : Option ℚ} (h : Bnd lo hi t)
    {y : ℚ} (hy : y ∈ inorderKeys t) : (∀ a ∈ lo, a < y) ∧ (∀ b ∈ hi, y < b) := by
  induction t generalizing lo hi with
  | leaf => simp [inorderKeys] at hy
  | node l x c ht r ihl ihr =>
    obtain ⟨hlox, hhix, hl, hr⟩ := show _ ∧ _ ∧ _ ∧ _ from h
    simp only [inorderKeys, List.mem_append, List.mem_cons] at hy
    rcases hy with hy | hy | hy
    · obtain ⟨h1, h2⟩ := ihl hl hy
      exact ⟨h1, fun b hb => lt_trans (h2 x rfl) (hhix b hb)⟩
    · subst hy; exact ⟨hlox, hhix⟩
    · obtain ⟨h1, h2⟩ := ihr hr hy
      exact ⟨fun a ha => lt_trans (hlox a ha) (h1 x rfl), h2⟩

/-- Every emitted value of a bounded tree lies strictly inside the bounds. -/
theorem bnd_mem_toList {t : AVLNode} {lo hi : Option ℚ} (h : Bnd lo hi t)
    {y : ℚ} (hy : y ∈ toList t) : (∀ a ∈ lo, a < y) ∧ (∀ b ∈ hi, y < b) :=
  bnd_mem_keys h (mem_inorderKeys_of_mem_toList hy)

/-- The in-order key list of a bounded tree is strictly ascending. -/
theorem inorderKeys_pairwise {t : AVLNode} {lo hi : Option ℚ} (h : Bnd lo hi t) :
    (inorderKeys t).Pairwise (· < ·) := by
  induction t generalizing lo hi with
  | leaf => simp [inorderKeys]
  | node l x c ht r ihl ihr =>
    obtain ⟨hlox, hhix, hl, hr⟩ := show _ ∧ _ ∧ _ ∧ _ from h
    simp only [inorderKeys]
    rw [List.pairwise_append]
    refine ⟨ihl hl, ?_, ?_⟩
    · rw [List.pairwise_cons]
      exact ⟨fun y hy => ((bnd_mem_keys hr hy).1 x rfl), ihr hr⟩
    · intro a ha b hb
      have hax : a < x := (bnd_mem_keys hl ha).2 x rfl
      rcases List.mem_cons.mp hb with rfl | hb
      · exact hax
      · exact lt_trans hax ((bnd_mem_keys hr hb).1 x rfl)

/-- The full in-order export (with multiplicities) of a bounded tree is
non-decreasing. -/
theorem toList_pairwise {t : AVLNode} {lo hi : Option ℚ} (h : Bnd lo hi t) :
    (toList t).Pairwise (· ≤ ·) := by
  induction t generalizing lo hi with
  | leaf => simp [toList]
  | node l x c ht r ihl ihr =>
    obtain ⟨hlox, hhix, hl, hr⟩ := show _ ∧ _ ∧ _ ∧ _ from h
    simp only [toList]
    rw [List.pairwise_append, List.pairwise_append]
    refine ⟨ihl hl, ⟨List.pairwise_replicate.mpr (Or.inr le_rfl), ihr hr, ?_⟩, ?_⟩
    · intro a ha b hb
      rcases List.eq_of_mem_replicate ha with rfl
      exact le_of_lt ((bnd_mem_toList hr hb).1 a rfl)
    · intro a ha b hb
      have hax : a < x := (bnd_mem_toList hl ha).2 x rfl
      rcases List.mem_append.mp hb with hb | hb
      · rcases List.eq_of_mem_replicate hb with rfl
        exact le_of_lt hax
      · exact le_of_lt (lt_trans hax ((bnd_mem_toList hr hb).1 x rfl))

theorem get_height_leaf : get_height .leaf = 0 := rfl

theorem get_height_node (l : AVLNode) (x : ℚ) (c h : ℕ) (r : AVLNode) :
    get_height (.node l x c h r) = h := rfl

/-! ## Heights and balance: the rebalancing tail restores the AVL invariant.

`fixup_left_spec` covers an insertion that went into the left child: `l` is
the child before the insertion, `nl` after it.  The conclusions give the
invariants for the rebalanced node, its resulting stored height relative to
the old height `1 + max (height l) (height r)`, and the `GrowSpec` facts
when the height grew. -/

theorem fixup_left_spec (l nl r : AVLNode) (x v : ℚ) (c : ℕ)
    (hvx : v < x)
    (hhnl : HeightOk nl) (hhr : HeightOk r)
    (hbnl : BalancedT nl) (hbr : BalancedT r)
    (hd : get_height nl = get_height l ∨ get_height nl = get_height l + 1)
    (hb1 : (get_height l : ℤ) - (get_height r : ℤ) ≤ 1)
    (hb2 : (get_height r : ℤ) - (get_height l : ℤ) ≤ 1)
    (hgrow : get_height nl = get_height l + 1 → l ≠ .leaf → GrowSpec v nl) :
    HeightOk (fixup nl x c r v) ∧ BalancedT (fixup nl x c r v) ∧
    (get_height (fixup nl x c r v) = 1 + max (get_height l) (get_height r) ∨
     get_height (fixup nl x c r v) = (1 + max (get_height l) (get_height r)) + 1) ∧
    (get_height (fixup nl x c r v) = (1 + max (get_height l) (get_height r)) + 1 →
      GrowSpec v (fixup nl x c r v)) := by
  cases nl with
  | leaf =>
    simp only [get_height_leaf, get_height_node] at hd
    simp only [fixup]
    rw [if_neg (by (try simp only [get_height_leaf, get_height_node]); omega), if_neg (by (try simp only [get_height_leaf, get_height_node]); omega)]
    refine ⟨⟨trivial, hhr, rfl⟩,
      ⟨trivial, hbr, by (try simp only [get_height_leaf, get_height_node]); omega, by (try simp only [get_height_leaf, get_height_node]); omega⟩,
      by (try simp only [get_height_leaf, get_height_node]); omega, ?_⟩
    intro hcon
    exfalso
    try simp only [get_height_leaf, get_height_node] at hcon
    omega
  | node a p ca hp b =>
    obtain ⟨hha, hhb, hhp⟩ := show _ ∧ _ ∧ _ from hhnl
    obtain ⟨hba, hbb, hbalL, hbalR⟩ := show _ ∧ _ ∧ _ ∧ _ from hbnl
    simp only [get_height_leaf, get_height_node] at hd
    simp only [fixup]
    split_ifs with hB1 hvp hB2
    · -- single right rotation (left-left case)
      simp only [get_height_leaf, get_height_node] at *
      have hlne : l ≠ AVLNode.leaf := by
        intro hl0
        rw [hl0] at hd
        simp only [get_height_leaf] at hd
        omega
      have hgs := hgrow (by (try simp only [get_height_leaf, get_height_node]); omega) hlne
      obtain ⟨hpv, hg1, hg2⟩ := show _ ∧ _ ∧ _ from hgs
      have hab : (get_height a : ℤ) - (get_height b : ℤ) = 1 := hg1 hvp
      simp only [get_height_leaf, get_height_node, right_rotate]
      refine ⟨⟨hha, ⟨hhb, hhr, rfl⟩, rfl⟩,
        ⟨hba, ⟨hbb, hbr, by (try simp only [get_height_leaf, get_height_node]); omega, by (try simp only [get_height_leaf, get_height_node]); omega⟩,
          by (try simp only [get_height_leaf, get_height_node]); omega, by (try simp only [get_height_leaf, get_height_node]); omega⟩,
        by (try simp only [get_height_leaf, get_height_node]); omega, ?_⟩
      intro hcon
      exfalso
      try simp only [get_height_leaf, get_height_node] at hcon
      omega
    · -- double rotation (left-right case)
      simp only [get_height_leaf, get_height_node] at *
      have hlne : l ≠ AVLNode.leaf := by
        intro hl0
        rw [hl0] at hd
        simp only [get_height_leaf] at hd
        omega
      have hgs := hgrow (by (try simp only [get_height_leaf, get_height_node]); omega) hlne
      obtain ⟨hpv, hg1, hg2⟩ := show _ ∧ _ ∧ _ from hgs
      have hpv' : p < v := lt_of_le_of_ne (not_lt.mp hvp) hpv
      have hab : (get_height a : ℤ) - (get_height b : ℤ) = -1 := hg2 hpv'
      cases b with
      | leaf =>
        exfalso
        simp only [get_height_leaf, get_height_node] at *
        omega
      | node ba q cb hqt bb =>
        obtain ⟨hhba, hhbb, hhq⟩ := show _ ∧ _ ∧ _ from hhb
        obtain ⟨hbba, hbbb, hq1, hq2⟩ := show _ ∧ _ ∧ _ ∧ _ from hbb
        simp only [get_height_leaf, get_height_node] at *
        simp only [get_height_leaf, get_height_node, left_rotate, right_rotate]
        refine ⟨⟨⟨hha, hhba, rfl⟩, ⟨hhbb, hhr, rfl⟩, rfl⟩,
          ⟨⟨hba, hbba, by (try simp only [get_height_leaf, get_height_node]); omega, by (try simp only [get_height_leaf, get_height_node]); omega⟩,
            ⟨hbbb, hbr, by (try simp only [get_height_leaf, get_height_node]); omega, by (try simp only [get_height_leaf, get_height_node]); omega⟩,
            by (try simp only [get_height_leaf, get_height_node]); omega, by (try simp only [get_height_leaf, get_height_node]); omega⟩,
          by (try simp only [get_height_leaf, get_height_node]); omega, ?_⟩
        intro hcon
        exfalso
        try simp only [get_height_leaf, get_height_node] at hcon
        omega
    · -- a right-heavy imbalance cannot arise from a left insertion
      exfalso
      simp only [get_height_leaf, get_height_node] at *
      omega
    · -- no rotation
      simp only [get_height_leaf, get_height_node] at *
      refine ⟨⟨⟨hha, hhb, hhp⟩, hhr, rfl⟩,
        ⟨⟨hba, hbb, hbalL, hbalR⟩, hbr, by (try simp only [get_height_leaf, get_height_node]); omega,
          by (try simp only [get_height_leaf, get_height_node]); omega⟩,
        by (try simp only [get_height_leaf, get_height_node]); omega, ?_⟩
      intro hcon
      try simp only [get_height_leaf, get_height_node] at hcon
      refine ⟨ne_of_gt hvx, fun _ => by (try simp only [get_height_leaf, get_height_node]); omega, fun hxv => ?_⟩
      exact absurd hxv (not_lt.mpr (le_of_lt hvx))

/-- Mirror of `fixup_left_spec` for an insertion that went into the right
child: `r` is the child before the insertion, `nr` after it. -/
theorem fixup_right_spec (r nr l : AVLNode) (x v : ℚ) (c : ℕ)
    (hxv : x < v)
    (hhnr : HeightOk nr) (hhl : HeightOk l)
    (hbnr : BalancedT nr) (hbl : BalancedT l)
    (hd : get_height nr = get_height r ∨ get_height nr = get_height r + 1)
    (hb1 : (get_height l : ℤ) - (get_height r : ℤ) ≤ 1)
    (hb2 : (get_height r : ℤ) - (get_height l : ℤ) ≤ 1)
    (hgrow : get_height nr = get_height r + 1 → r ≠ .leaf → GrowSpec v nr) :
    HeightOk (fixup l x c nr v) ∧ BalancedT (fixup l x c nr v) ∧
    (get_height (fixup l x c nr v) = 1 + max (get_height l) (get_height r) ∨
     get_height (fixup l x c nr v) = (1 + max (get_height l) (get_height r)) + 1) ∧
    (get_height (fixup l x c nr v) = (1 + max (get_height l) (get_height r)) + 1 →
      GrowSpec v (fixup l x c nr v)) := by
  cases nr with
  | leaf =>
    simp only [get_height_leaf, get_height_node] at hd
    simp only [fixup]
    rw [if_neg (by (try simp only [get_height_leaf, get_height_node]); omega),
        if_neg (by (try simp only [get_height_leaf, get_height_node]); omega)]
    refine ⟨⟨hhl, trivial, rfl⟩,
      ⟨hbl, trivial, by (try simp only [get_height_leaf, get_height_node]); omega,
        by (try simp only [get_height_leaf, get_height_node]); omega⟩,
      by (try simp only [get_height_leaf, get_height_node]); omega, ?_⟩
    intro hcon
    exfalso
    try simp only [get_height_leaf, get_height_node] at hcon
    omega
  | node a p ca hp b =>
    obtain ⟨hha, hhb, hhp⟩ := show _ ∧ _ ∧ _ from hhnr
    obtain ⟨hba, hbb, hbalL, hbalR⟩ := show _ ∧ _ ∧ _ ∧ _ from hbnr
    simp only [get_height_leaf, get_height_node] at hd
    simp only [fixup]
    split_ifs with hB1 hB2 hrv
    · -- a left-heavy imbalance cannot arise from a right insertion
      exfalso
      simp only [get_height_leaf, get_height_node] at *
      omega
    · -- single left rotation (right-right case)
      simp only [get_height_leaf, get_height_node] at *
      have hrne : r ≠ AVLNode.leaf := by
        intro hr0
        rw [hr0] at hd
        simp only [get_height_leaf] at hd
        omega
      have hgs := hgrow (by (try simp only [get_height_leaf, get_height_node]); omega) hrne
      obtain ⟨hpv, hg1, hg2⟩ := show _ ∧ _ ∧ _ from hgs
      have hab : (get_height a : ℤ) - (get_height b : ℤ) = -1 := hg2 hrv
      simp only [get_height_leaf, get_height_node, left_rotate]
      refine ⟨⟨⟨hhl, hha, rfl⟩, hhb, rfl⟩,
        ⟨⟨hbl, hba, by (try simp only [get_height_leaf, get_height_node]); omega,
            by (try simp only [get_height_leaf, get_height_node]); omega⟩,
          hbb, by (try simp only [get_height_leaf, get_height_node]); omega,
          by (try simp only [get_height_leaf, get_height_node]); omega⟩,
        by (try simp only [get_height_leaf, get_height_node]); omega, ?_⟩
      intro hcon
      exfalso
      try simp only [get_height_leaf, get_height_node] at hcon
      omega
    · -- double rotation (right-left case)
      simp only [get_height_leaf, get_height_node] at *
      have hrne : r ≠ AVLNode.leaf := by
        intro hr0
        rw [hr0] at hd
        simp only [get_height_leaf] at hd
        omega
      have hgs := hgrow (by (try simp only [get_height_leaf, get_height_node]); omega) hrne
      obtain ⟨hpv, hg1, hg2⟩ := show _ ∧ _ ∧ _ from hgs
      have hpv' : v < p := lt_of_le_of_ne (not_lt.mp hrv) (Ne.symm hpv)
      have hab : (get_height a : ℤ) - (get_height b : ℤ) = 1 := hg1 hpv'
      cases a with
      | leaf =>
        exfalso
        simp only [get_height_leaf, get_height_node] at *
        omega
      | node aa q cq hqt ab =>
        obtain ⟨hhaa, hhab, hhq⟩ := show _ ∧ _ ∧ _ from hha
        obtain ⟨hbaa, hbab, hq1, hq2⟩ := show _ ∧ _ ∧ _ ∧ _ from hba
        simp only [get_height_leaf, get_height_node] at *
        simp only [get_height_leaf, get_height_node, left_rotate, right_rotate]
        refine ⟨⟨⟨hhl, hhaa, rfl⟩, ⟨hhab, hhb, rfl⟩, rfl⟩,
          ⟨⟨hbl, hbaa, by (try simp only [get_height_leaf, get_height_node]); omega,
              by (try simp only [get_height_leaf, get_height_node]); omega⟩,
            ⟨hbab, hbb, by (try simp only [get_height_leaf, get_height_node]); omega,
              by (try simp only [get_height_leaf, get_height_node]); omega⟩,
            by (try simp only [get_height_leaf, get_height_node]); omega,
            by (try simp only [get_height_leaf, get_height_node]); omega⟩,
          by (try simp only [get_height_leaf, get_height_node]); omega, ?_⟩
        intro hcon
        exfalso
        try simp only [get_height_leaf, get_height_node] at hcon
        omega
    · -- no rotation
      simp only [get_height_leaf, get_height_node] at *
      refine ⟨⟨hhl, ⟨hha, hhb, hhp⟩, rfl⟩,
        ⟨hbl, ⟨hba, hbb, hbalL, hbalR⟩, by (try simp only [get_height_leaf, get_height_node]); omega,
          by (try simp only [get_height_leaf, get_height_node]); omega⟩,
        by (try simp only [get_height_leaf, get_height_node]); omega, ?_⟩
      intro hcon
      try simp only [get_height_leaf, get_height_node] at hcon
      refine ⟨ne_of_lt hxv, fun hvx => ?_, fun _ => by (try simp only [get_height_leaf, get_height_node]); omega⟩
      exact absurd hvx (not_lt.mpr (le_of_lt hxv))

/-- Insertion preserves height-correctness and balance, grows the stored
height by at most one, and when it grows, the result satisfies `GrowSpec`. -/
theorem insert_hb (t : AVLNode) (v : ℚ) (hh : HeightOk t) (hb : BalancedT t) :
    HeightOk (insertTree t v) ∧ BalancedT (insertTree t v) ∧
    (get_height (insertTree t v) = get_height t ∨
     get_height (insertTree t v) = get_height t + 1) ∧
    (get_height (insertTree t v) = get_height t + 1 → t ≠ .leaf →
      GrowSpec v (insertTree t v)) := by
  induction t with
  | leaf =>
    refine ⟨⟨trivial, trivial, by simp only [get_height_leaf]; omega⟩,
      ⟨trivial, trivial, by simp only [get_height_leaf]; omega,
        by simp only [get_height_leaf]; omega⟩,
      Or.inr (by simp only [insertTree, get_height_leaf, get_height_node]),
      fun _ hne => absurd rfl hne⟩
  | node l x c ht r ihl ihr =>
    obtain ⟨hhl, hhr, hht⟩ := show _ ∧ _ ∧ _ from hh
    obtain ⟨hbl, hbr, hb1, hb2⟩ := show _ ∧ _ ∧ _ ∧ _ from hb
    simp only [insertTree]
    split_ifs with hvx hxv
    · obtain ⟨ih1, ih2, ih3, ih4⟩ := ihl hhl hbl
      have main := fixup_left_spec l (insertTree l v) r x v c hvx ih1 hhr ih2 hbr ih3 hb1 hb2 ih4
      refine ⟨main.1, main.2.1, ?_, ?_⟩
      · have := main.2.2.1
        simp only [get_height_node]
        omega
      · intro hg _
        apply main.2.2.2
        simp only [get_height_node] at hg
        omega
    · obtain ⟨ih1, ih2, ih3, ih4⟩ := ihr hhr hbr
      have main := fixup_right_spec r (insertTree r v) l x v c hxv ih1 hhl ih2 hbl ih3 hb1 hb2 ih4
      refine ⟨main.1, main.2.1, ?_, ?_⟩
      · have := main.2.2.1
        simp only [get_height_node]
        omega
      · intro hg _
        apply main.2.2.2
        simp only [get_height_node] at hg
        omega
    · refine ⟨⟨hhl, hhr, hht⟩, ⟨hbl, hbr, hb1, hb2⟩, Or.inl rfl, ?_⟩
      intro hg _
      exfalso
      simp only [get_height_node] at hg
      omega

/-! ## Multiplicity counts stay positive. -/

theorem posCounts_left_rotate {t : AVLNode} (h : PosCounts t) : PosCounts (left_rotate t) := by
  cases t with
  | leaf => exact h
  | node l x c ht r =>
    cases r with
    | leaf => exact h
    | node rl y cy hy rr =>
      obtain ⟨hl, ⟨hrl, hrr, hcy⟩, hc⟩ :=
        show PosCounts l ∧ (PosCounts rl ∧ PosCounts rr ∧ 1 ≤ cy) ∧ 1 ≤ c from
          ⟨h.1, h.2.1, h.2.2⟩
      exact ⟨⟨hl, hrl, hc⟩, hrr, hcy⟩

theorem posCounts_right_rotate {t : AVLNode} (h : PosCounts t) : PosCounts (right_rotate t) := by
  cases t with
  | leaf => exact h
  | node l x c ht r =>
    cases l with
    | leaf => exact h
    | node ll y cy hy lr =>
      obtain ⟨⟨hll, hlr, hcy⟩, hr, hc⟩ :=
        show (PosCounts ll ∧ PosCounts lr ∧ 1 ≤ cy) ∧ PosCounts r ∧ 1 ≤ c from
          ⟨h.1, h.2.1, h.2.2⟩
      exact ⟨hll, ⟨hlr, hr, hc⟩, hcy⟩

theorem posCounts_fixup {l r : AVLNode} {x v : ℚ} {c : ℕ}
    (hl : PosCounts l) (hr : PosCounts r) (hc : 1 ≤ c) : PosCounts (fixup l x c r v) := by
  have hnode : ∀ hh : ℕ, PosCounts (AVLNode.node l x c hh r) := fun hh => ⟨hl, hr, hc⟩
  unfold fixup
  split
  · split
    · exact hnode _
    · split
      · exact posCounts_right_rotate (hnode _)
      · exact posCounts_right_rotate ⟨posCounts_left_rotate hl, hr, hc⟩
  · split
    · split
      · exact hnode _
      · split
        · exact posCounts_left_rotate (hnode _)
        · exact posCounts_left_rotate ⟨hl, posCounts_right_rotate hr, hc⟩
    · exact hnode _

theorem posCounts_insertTree {t : AVLNode} (v : ℚ) (h : PosCounts t) :
    PosCounts (insertTree t v) := by
  induction t with
  | leaf => exact ⟨trivial, trivial, le_refl 1⟩
  | node l x c ht r ihl ihr =>
    obtain ⟨hl, hr, hc⟩ := show _ ∧ _ ∧ _ from h
    simp only [insertTree]
    split_ifs
    · exact posCounts_fixup (ihl hl) hr hc
    · exact posCounts_fixup hl (ihr hr) hc
    · exact ⟨hl, hr, by omega⟩

/-! ## The equal-key insert only bumps one multiplicity. -/

theorem get_height_incCount (t : AVLNode) (v : ℚ) :
    get_height (incCount t v) = get_height t := by
  cases t with
  | leaf => rfl
  | node l x c ht r =>
    simp only [incCount]
    split_ifs <;> rfl

theorem stripCounts_incCount (t : AVLNode) (v : ℚ) :
    stripCounts (incCount t v) = stripCounts t := by
  induction t with
  | leaf => rfl
  | node l x c ht r ihl ihr =>
    simp only [incCount]
    split_ifs <;> simp only [stripCounts, ihl, ihr]

/-- On a well-formed tree that already contains the key, `_insert` reduces to
the pure multiplicity bump: no rotation fires, no height field changes. -/
theorem insertTree_eq_incCount {t : AVLNode} {v : ℚ} {lo hi : Option ℚ}
    (hh : HeightOk t) (hb : BalancedT t) (ho : Bnd lo hi t)
    (hmem : v ∈ inorderKeys t) : insertTree t v = incCount t v := by
  induction t generalizing lo hi with
  | leaf => simp [inorderKeys] at hmem
  | node l x c ht r ihl ihr =>
    obtain ⟨hhl, hhr, hht⟩ := show _ ∧ _ ∧ _ from hh
    obtain ⟨hbl, hbr, hb1, hb2⟩ := show _ ∧ _ ∧ _ ∧ _ from hb
    obtain ⟨hlox, hhix, hol, hor⟩ := show _ ∧ _ ∧ _ ∧ _ from ho
    simp only [insertTree, incCount]
    split_ifs with hvx hxv
    · -- v goes left, and must be a key of the left subtree
      have hmeml : v ∈ inorderKeys l := by
        simp only [inorderKeys, List.mem_append, List.mem_cons] at hmem
        rcases hmem with hm | hm | hm
        · exact hm
        · exact absurd hm (ne_of_lt hvx)
        · exact absurd ((bnd_mem_keys hor hm).1 x rfl) (not_lt.mpr (le_of_lt hvx))
      rw [ihl hhl hbl hol hmeml]
      unfold fixup
      rw [if_neg (by rw [get_height_incCount]; omega),
          if_neg (by rw [get_height_incCount]; omega)]
      rw [get_height_incCount, ← hht]
    · have hmemr : v ∈ inorderKeys r := by
        simp only [inorderKeys, List.mem_append, List.mem_cons] at hmem
        rcases hmem with hm | hm | hm
        · exact absurd ((bnd_mem_keys hol hm).2 x rfl) (not_lt.mpr (le_of_lt hxv))
        · exact absurd hm.symm (ne_of_lt hxv)
        · exact hm
      rw [ihr hhr hbr hor hmemr]
      unfold fixup
      rw [if_neg (by rw [get_height_incCount]; omega),
          if_neg (by rw [get_height_incCount]; omega)]
      rw [get_height_incCount, ← hht]
    · rfl

/-- The number of nodes holding a key is the key's multiplicity in the
in-order key list. -/
theorem nodesWithKey_eq_count (t : AVLNode) (w : ℚ) :
    nodesWithKey t w = List.count w (inorderKeys t) := by
  induction t with
  | leaf => rfl
  | node l x c ht r ihl ihr =>
    simp only [nodesWithKey, inorderKeys, List.count_append, List.count_cons,
      beq_iff_eq, ihl, ihr]
    by_cases hwx : w = x
    · subst hwx
      simp only [eq_self_iff_true, if_true]
      omega
    · rw [if_neg hwx, if_neg (fun hh => hwx hh.symm)]
      omega

/-- A strictly ascending list counts every element at most once. -/
theorem count_le_one_of_pairwise_lt {l : List ℚ} (h : l.Pairwise (· < ·)) (a : ℚ) :
    List.count a l ≤ 1 := by
  induction l with
  | nil => simp
  | cons x xs ih =>
    rw [List.pairwise_cons] at h
    by_cases hax : x = a
    · subst hax
      have hnot : x ∉ xs := fun hmem => absurd (h.1 x hmem) (lt_irrefl x)
      rw [List.count_cons, List.count_eq_zero_of_not_mem hnot]
      simp
    · have := ih h.2
      simp only [List.count_cons, beq_iff_eq, if_neg hax]
      omega

/-- Behaviour of `multAt` after `incCount`: the looked-up key gains one, all other keys
are untouched. -/
theorem multAt_incCount {t : AVLNode} {v : ℚ} {lo hi : Option ℚ}
    (ho : Bnd lo hi t) (hmem : v ∈ inorderKeys t) :
    multAt (incCount t v) v = multAt t v + 1 ∧
    ∀ w : ℚ, w ≠ v → multAt (incCount t v) w = multAt t w := by
  induction t generalizing lo hi with
  | leaf => simp [inorderKeys] at hmem
  | node l x c ht r ihl ihr =>
    obtain ⟨hlox, hhix, hol, hor⟩ := show _ ∧ _ ∧ _ ∧ _ from ho
    simp only [incCount]
    split_ifs with hvx hxv
    · have hmeml : v ∈ inorderKeys l := by
        simp only [inorderKeys, List.mem_append, List.mem_cons] at hmem
        rcases hmem with hm | hm | hm
        · exact hm
        · exact absurd hm (ne_of_lt hvx)
        · exact absurd ((bnd_mem_keys hor hm).1 x rfl) (not_lt.mpr (le_of_lt hvx))
      obtain ⟨ih1, ih2⟩ := ihl hol hmeml
      constructor
      · simp only [multAt, ih1]
        omega
      · intro w hw
        simp only [multAt, ih2 w hw]
    · have hmemr : v ∈ inorderKeys r := by
        simp only [inorderKeys, List.mem_append, List.mem_cons] at hmem
        rcases hmem with hm | hm | hm
        · exact absurd ((bnd_mem_keys hol hm).2 x rfl) (not_lt.mpr (le_of_lt hxv))
        · exact absurd hm.symm (ne_of_lt hxv)
        · exact hm
      obtain ⟨ih1, ih2⟩ := ihr hor hmemr
      constructor
      · simp only [multAt, ih1]
        omega
      · intro w hw
        simp only [multAt, ih2 w hw]
    · have hveq : v = x := le_antisymm (not_lt.mp hxv) (not_lt.mp hvx)
      subst hveq
      constructor
      · simp only [multAt, eq_self_iff_true, if_true]
        omega
      · intro w hw
        simp only [multAt, if_neg hw]

/-! ## Invariants of trees built by a sequence of inserts. -/

theorem foldl_insert_inv (vs : List ℚ) (t : AVLNode)
    (h : HeightOk t ∧ BalancedT t ∧ Ordered t ∧ PosCounts t) :
    HeightOk (vs.foldl insertTree t) ∧ BalancedT (vs.foldl insertTree t) ∧
    Ordered (vs.foldl insertTree t) ∧ PosCounts (vs.foldl insertTree t) := by
  induction vs generalizing t with
  | nil => exact h
  | cons v vs ih =>
    apply ih
    obtain ⟨h1, h2, h3, h4⟩ := h
    have hins := insert_hb t v h1 h2
    exact ⟨hins.1, hins.2.1,
      bnd_insertTree h3 (fun a ha => nomatch ha) (fun b hb => nomatch hb),
      posCounts_insertTree v h4⟩

theorem buildRoot_inv (vs : List ℚ) :
    HeightOk (buildRoot vs) ∧ BalancedT (buildRoot vs) ∧
    Ordered (buildRoot vs) ∧ PosCounts (buildRoot vs) :=
  foldl_insert_inv vs .leaf ⟨trivial, trivial, trivial, trivial⟩

/-! ## The scalar state of an `AVLTree` after a sequence of inserts. -/

theorem foldl_insert_root (vs : List ℚ) (t : AVLTree) :
    (vs.foldl AVLTree.insert t).root = vs.foldl insertTree t.root := by
  induction vs generalizing t with
  | nil => rfl
  | cons v vs ih => simp only [List.foldl_cons]; rw [ih]; rfl

theorem foldl_insert_log (vs : List ℚ) (t : AVLTree) :
    (vs.foldl AVLTree.insert t).insertion_order = t.insertion_order ++ vs := by
  induction vs generalizing t with
  | nil => simp
  | cons v vs ih =>
    simp only [List.foldl_cons]
    rw [ih]
    show (t.insertion_order ++ [v]) ++ vs = _
    simp

theorem foldl_insert_count (vs : List ℚ) (t : AVLTree) :
    (vs.foldl AVLTree.insert t).count_values = t.count_values + vs.length := by
  induction vs generalizing t with
  | nil => simp
  | cons v vs ih =>
    simp only [List.foldl_cons]
    rw [ih]
    show t.count_values + 1 + vs.length = _
    simp only [List.length_cons]
    omega

theorem foldl_insert_size (vs : List ℚ) (t : AVLTree) :
    (vs.foldl AVLTree.insert t).total_size = t.total_size + vs.length := by
  induction vs generalizing t with
  | nil => simp
  | cons v vs ih =>
    simp only [List.foldl_cons]
    rw [ih]
    show t.total_size + 1 + vs.length = _
    simp only [List.length_cons]
    omega

theorem buildAVL_root (vs : List ℚ) : (buildAVL vs).root = buildRoot vs :=
  foldl_insert_root vs emptyAVL

theorem buildAVL_log (vs : List ℚ) : (buildAVL vs).insertion_order = vs := by
  rw [buildAVL, foldl_insert_log]
  rfl

theorem buildAVL_count (vs : List ℚ) : (buildAVL vs).count_values = vs.length := by
  rw [buildAVL, foldl_insert_count]
  simp [emptyAVL]

theorem buildAVL_size (vs : List ℚ) : (buildAVL vs).total_size = vs.length := by
  rw [buildAVL, foldl_insert_size]
  simp [emptyAVL]

theorem buildAVL_cache (vs : List ℚ) (hne : vs ≠ []) :
    (buildAVL vs).stats_cache = none ∧ (buildAVL vs).cache_last_n = none := by
  rcases List.eq_nil_or_concat vs with rfl | ⟨ws, w, rfl⟩
  · exact absurd rfl hne
  · rw [buildAVL, List.concat_eq_append, List.foldl_append]
    exact ⟨rfl, rfl⟩

/-- Expanding a sum of squared deviations around an arbitrary center. -/
theorem sum_sq_dev (l : List ℚ) (μ : ℚ) :
    (l.map (fun x => (x - μ) ^ 2)).sum =
      (l.map (fun x => x ^ 2)).sum - 2 * μ * l.sum + (l.length : ℚ) * μ ^ 2 := by
  induction l with
  | nil => simp
  | cons x xs ih =>
    simp only [List.map_cons, List.sum_cons, List.length_cons, ih]
    push_cast
    ring

/-! ## Field equations of `AVLTree.insert`. -/

theorem AVLTree.insert_root (t : AVLTree) (w : ℚ) :
    (t.insert w).root = insertTree t.root w := rfl

theorem AVLTree.insert_order (t : AVLTree) (w : ℚ) :
    (t.insert w).insertion_order = t.insertion_order ++ [w] := rfl

theorem AVLTree.insert_count (t : AVLTree) (w : ℚ) :
    (t.insert w).count_values = t.count_values + 1 := rfl

theorem AVLTree.insert_total (t : AVLTree) (w : ℚ) :
    (t.insert w).total_size = t.total_size + 1 := rfl

theorem AVLTree.insert_sum (t : AVLTree) (w : ℚ) :
    (t.insert w).sum_values = t.sum_values + w := rfl

theorem AVLTree.insert_mean (t : AVLTree) (w : ℚ) :
    (t.insert w).mean_value = (t.sum_values + w) / ((t.count_values + 1 : ℕ) : ℚ) := rfl

theorem AVLTree.insert_last (t : AVLTree) (w : ℚ) :
    (t.insert w).last_inserted_value = some w := rfl

theorem AVLTree.insert_min (t : AVLTree) (w : ℚ) :
    (t.insert w).min_value = min t.min_value (w : WithTop ℚ) := rfl

theorem AVLTree.insert_max (t : AVLTree) (w : ℚ) :
    (t.insert w).max_value = max t.max_value (w : WithBot ℚ) := rfl

theorem AVLTree.insert_sos (t : AVLTree) (w : ℚ) :
    (t.insert w).sum_of_squares =
      if 1 < t.count_values + 1 then
        t.sum_of_squares +
          (w - t.mean_value) * (w - (t.sum_values + w) / ((t.count_values + 1 : ℕ) : ℚ))
      else t.sum_of_squares := rfl

theorem AVLTree.insert_cache (t : AVLTree) (w : ℚ) :
    (t.insert w).stats_cache = none ∧ (t.insert w).cache_last_n = none := ⟨rfl, rfl⟩

/-! ## Running aggregates after a build (the Welford invariant). -/

theorem buildAVL_stats (vs : List ℚ) (hne : vs ≠ []) :
    (buildAVL vs).sum_values = vs.sum ∧
    (buildAVL vs).mean_value = vs.sum / (vs.length : ℚ) ∧
    (buildAVL vs).last_inserted_value = some (vs.getLast hne) ∧
    (buildAVL vs).sum_of_squares
      = (vs.map (fun x => (x - vs.sum / (vs.length : ℚ)) ^ 2)).sum ∧
    (∃ m : ℚ, (buildAVL vs).min_value = (m : WithTop ℚ) ∧ m ∈ vs ∧ ∀ x ∈ vs, m ≤ x) ∧
    (∃ M : ℚ, (buildAVL vs).max_value = (M : WithBot ℚ) ∧ M ∈ vs ∧ ∀ x ∈ vs, x ≤ M) := by
  induction vs using List.reverseRecOn with
  | nil => exact absurd rfl hne
  | append_singleton ws w ih =>
    have hstep : buildAVL (ws ++ [w]) = (buildAVL ws).insert w := by
      rw [buildAVL, List.foldl_append]
      rfl
    rcases eq_or_ne ws [] with rfl | hws
    · rw [hstep]
      refine ⟨?_, ?_, ?_, ?_, ⟨w, ?_, by simp, by simp⟩, ⟨w, ?_, by simp, by simp⟩⟩
      · rw [AVLTree.insert_sum]
        simp [buildAVL, emptyAVL]
      · rw [AVLTree.insert_mean]
        simp [buildAVL, emptyAVL]
      · rw [AVLTree.insert_last]
        simp
      · rw [AVLTree.insert_sos]
        simp [buildAVL, emptyAVL]
      · rw [AVLTree.insert_min]
        simp [buildAVL, emptyAVL]
      · rw [AVLTree.insert_max]
        simp [buildAVL, emptyAVL]
    · obtain ⟨ihsum, ihmean, ihlast, ihsos, ⟨m, hm1, hm2, hm3⟩, ⟨M, hM1, hM2, hM3⟩⟩ := ih hws
      have hcount : (buildAVL ws).count_values = ws.length := buildAVL_count ws
      have hn1 : 1 ≤ ws.length := List.length_pos.mpr hws
      have hnz : ((ws.length : ℚ)) ≠ 0 := Nat.cast_ne_zero.mpr (by omega)
      rw [hstep]
      refine ⟨?_, ?_, ?_, ?_, ?_, ?_⟩
      · rw [AVLTree.insert_sum, ihsum]
        simp
      · rw [AVLTree.insert_mean, ihsum, hcount]
        simp only [List.sum_append, List.length_append, List.sum_cons, List.sum_nil,
          List.length_cons, List.length_nil]
        push_cast
        ring
      · rw [AVLTree.insert_last]
        simp
      · rw [AVLTree.insert_sos, hcount, if_pos (by omega), ihsos, ihmean, ihsum]
        simp only [List.map_append, List.sum_append, List.map_cons, List.sum_cons,
          List.map_nil, List.sum_nil, List.sum_append, List.length_append,
          List.length_cons, List.length_nil]
        rw [sum_sq_dev, sum_sq_dev]
        have hnz2 : ((ws.length : ℚ)) + 1 ≠ 0 := by positivity
        push_cast
        field_simp
        ring
      · refine ⟨min m w, ?_, ?_, ?_⟩
        · rw [AVLTree.insert_min, hm1, ← WithTop.coe_min]
        · rcases le_total m w with hmw | hmw
          · rw [min_eq_left hmw]
            exact List.mem_append_left _ hm2
          · rw [min_eq_right hmw]
            exact List.mem_append_right _ (by simp)
        · intro x hx
          rcases List.mem_append.mp hx with hx | hx
          · exact le_trans (min_le_left m w) (hm3 x hx)
          · rcases List.mem_singleton.mp hx with rfl
            exact min_le_right m x
      · refine ⟨max M w, ?_, ?_, ?_⟩
        · rw [AVLTree.insert_max, hM1, ← WithBot.coe_max]
        · rcases le_total M w with hMw | hMw
          · rw [max_eq_right hMw]
            exact List.mem_append_right _ (by simp)
          · rw [max_eq_left hMw]
            exact List.mem_append_left _ hM2
        · intro x hx
          rcases List.mem_append.mp hx with hx | hx
          · exact le_trans (hM3 x hx) (le_max_left M w)
          · rcases List.mem_singleton.mp hx with rfl
            exact le_max_right M x

/-! ## Window selection and aggregate computation lemmas. -/

/-- The spec-side window is the Python slice. -/
theorem lastWindow_eq_drop (l : List ℚ) (m : ℕ) :
    lastWindow l m = l.drop (l.length - m) := by
  rw [lastWindow, List.take_reverse, List.reverse_reverse]

theorem lastWindow_length (l : List ℚ) (m : ℕ) :
    (lastWindow l m).length = min m l.length := by
  rw [lastWindow_eq_drop, List.length_drop]
  omega

theorem pySliceLast_eq_lastWindow (l : List ℚ) (n : ℤ) (hn : 0 ≤ n) :
    pySliceLast l n = lastWindow l n.toNat := by
  rw [pySliceLast, if_pos hn, lastWindow_eq_drop]

theorem lastWindow_ne_nil (l : List ℚ) (m : ℕ) (hl : l ≠ []) (hm : 1 ≤ m) :
    lastWindow l m ≠ [] := by
  rw [lastWindow_eq_drop]
  intro hdrop
  rw [List.drop_eq_nil_iff] at hdrop
  have := List.length_pos.mpr hl
  omega

theorem lastWindow_getLast? (l : List ℚ) (m : ℕ) (hl : l ≠ []) (hm : 1 ≤ m) :
    (lastWindow l m).getLast? = l.getLast? := by
  have hne := lastWindow_ne_nil l m hl hm
  rw [lastWindow_eq_drop] at hne ⊢
  conv_rhs => rw [← List.take_append_drop (l.length - m) l]
  rw [List.getLast?_append_of_ne_nil _ hne]

/-- Python `min(values)` (a left fold of binary `min` from the head) is a
member of the list and a lower bound for it. -/
theorem foldl_min_spec : ∀ (rest : List ℚ) (v : ℚ),
    rest.foldl min v ∈ v :: rest ∧ ∀ x ∈ v :: rest, rest.foldl min v ≤ x
  | [], v => by simp
  | y :: ys, v => by
    obtain ⟨hmem, hle⟩ := foldl_min_spec ys (min v y)
    rw [List.foldl_cons]
    constructor
    · rcases List.mem_cons.mp hmem with h | h
      · rcases le_total v y with hvy | hvy
        · rw [min_eq_left hvy] at h ⊢
          rw [h]
          exact List.mem_cons_self _ _
        · rw [min_eq_right hvy] at h ⊢
          rw [h]
          exact List.mem_cons_of_mem _ (List.mem_cons_self _ _)
      · exact List.mem_cons_of_mem _ (List.mem_cons_of_mem _ h)
    · intro x hx
      have hminy := hle (min v y) (List.mem_cons_self _ _)
      rcases List.mem_cons.mp hx with rfl | hx2
      · exact le_trans hminy (min_le_left _ _)
      · rcases List.mem_cons.mp hx2 with rfl | hx3
        · exact le_trans hminy (min_le_right _ _)
        · exact hle x (List.mem_cons_of_mem _ hx3)

/-- Python `max(values)` is a member of the list and an upper bound for it. -/
theorem foldl_max_spec : ∀ (rest : List ℚ) (v : ℚ),
    rest.foldl max v ∈ v :: rest ∧ ∀ x ∈ v :: rest, x ≤ rest.foldl max v
  | [], v => by simp
  | y :: ys, v => by
    obtain ⟨hmem, hle⟩ := foldl_max_spec ys (max v y)
    rw [List.foldl_cons]
    constructor
    · rcases List.mem_cons.mp hmem with h | h
      · rcases le_total v y with hvy | hvy
        · rw [max_eq_right hvy] at h ⊢
          rw [h]
          exact List.mem_cons_of_mem _ (List.mem_cons_self _ _)
        · rw [max_eq_left hvy] at h ⊢
          rw [h]
          exact List.mem_cons_self _ _
      · exact List.mem_cons_of_mem _ (List.mem_cons_of_mem _ h)
    · intro x hx
      have hmaxy := hle (max v y) (List.mem_cons_self _ _)
      rcases List.mem_cons.mp hx with rfl | hx2
      · exact le_trans (le_max_left _ _) hmaxy
      · rcases List.mem_cons.mp hx2 with rfl | hx3
        · exact le_trans (le_max_right _ _) hmaxy
        · exact hle x (List.mem_cons_of_mem _ hx3)

/-- The population variance of a one-element list is zero. -/
theorem popVar_singleton (v : ℚ) : popVar [v] = 0 := by
  simp [popVar]

/-! ## Behaviour of `computeStats` and `get_stats`. -/

theorem windowValues_some_pos (t : AVLTree) (n : ℤ) (hn : 0 < n) :
    windowValues t (some n) = lastWindow t.insertion_order n.toNat := by
  rw [windowValues, if_neg (by omega), pySliceLast_eq_lastWindow _ _ (le_of_lt hn)]

/-- A successful compute path: the returned statistics satisfy the window
specification for the last `n` log entries, and the cache is filled with
exactly that result. -/
theorem computeStats_spec (t : AVLTree) (n : ℤ) (hn : 0 < n)
    (hne : t.insertion_order ≠ []) :
    ∃ s : StatsResult,
      computeStats t (some n) =
        (.ok s, { t with stats_cache := some s, cache_last_n := some n }) ∧
      WindowSpec s (lastWindow t.insertion_order n.toNat) := by
  have hwv := windowValues_some_pos t n hn
  have hwne : lastWindow t.insertion_order n.toNat ≠ [] :=
    lastWindow_ne_nil _ _ hne (by omega)
  unfold computeStats
  rw [hwv]
  cases hw : lastWindow t.insertion_order n.toNat with
  | nil => exact absurd hw hwne
  | cons v rest =>
    refine ⟨_, rfl, ?_, ?_, ?_, rfl, ?_, rfl⟩
    · obtain ⟨hmem, hle⟩ := foldl_min_spec rest v
      exact ⟨rest.foldl min v, rfl, hmem, hle⟩
    · obtain ⟨hmem, hle⟩ := foldl_max_spec rest v
      exact ⟨rest.foldl max v, rfl, hmem, hle⟩
    · rw [List.getLast?_eq_getLast_of_ne_nil (List.cons_ne_nil v rest)]
    · show some _ = some (popVar (v :: rest))
      by_cases hlen : 1 < (v :: rest).length
      · rw [if_pos hlen]
        rfl
      · rw [if_neg hlen]
        have : rest = [] := by
          cases rest with
          | nil => rfl
          | cons y ys => simp at hlen
        subst this
        rw [popVar_singleton]
    -- remaining conjuncts delivered by rfl above
  
theorem computeStats_snd_fields (t : AVLTree) (ln : Option ℤ) :
    (computeStats t ln).2.root = t.root ∧
    (computeStats t ln).2.insertion_order = t.insertion_order ∧
    (computeStats t ln).2.count_values = t.count_values ∧
    (computeStats t ln).2.total_size = t.total_size := by
  unfold computeStats
  cases windowValues t ln with
  | nil => exact ⟨rfl, rfl, rfl, rfl⟩
  | cons v rest => exact ⟨rfl, rfl, rfl, rfl⟩

theorem get_stats_snd_eq (t : AVLTree) (ln : Option ℤ) :
    (t.get_stats ln).2 = t ∨ (t.get_stats ln).2 = (computeStats t ln).2 := by
  unfold AVLTree.get_stats
  by_cases h0 : t.count_values = 0
  · rw [if_pos h0]
    exact Or.inl rfl
  · rw [if_neg h0]
    split
    · split
      · exact Or.inl rfl
      · exact Or.inr rfl
    · exact Or.inr rfl

theorem get_stats_snd_fields (t : AVLTree) (ln : Option ℤ) :
    (t.get_stats ln).2.root = t.root ∧
    (t.get_stats ln).2.insertion_order = t.insertion_order ∧
    (t.get_stats ln).2.count_values = t.count_values ∧
    (t.get_stats ln).2.total_size = t.total_size := by
  rcases get_stats_snd_eq t ln with h | h
  · rw [h]
    exact ⟨rfl, rfl, rfl, rfl⟩
  · rw [h]
    exact computeStats_snd_fields t ln

/-- The two possible outcomes of the compute path. -/
theorem computeStats_cases (t : AVLTree) (ln : Option ℤ) :
    computeStats t ln = (.error .emptySequence, t) ∨
    ∃ s : StatsResult, computeStats t ln =
      (.ok s, { t with stats_cache := some s, cache_last_n := ln }) ∧
      s.size ≠ none := by
  unfold computeStats
  cases windowValues t ln with
  | nil => exact Or.inl rfl
  | cons v rest => exact Or.inr ⟨_, rfl, by simp⟩

/-- Repeating a miss-path computation: the second call returns the identical
pair (it hits the just-filled cache, or fails identically). -/
theorem computeStats_repeat (t : AVLTree) (ln : Option ℤ)
    (h0 : t.count_values ≠ 0)
    (hmiss : t.stats_cache = none ∨ t.cache_last_n ≠ ln) :
    (computeStats t ln).2.get_stats ln = computeStats t ln := by
  rcases computeStats_cases t ln with h | ⟨s, h, _⟩
  · rw [h]
    show t.get_stats ln = _
    unfold AVLTree.get_stats
    rw [if_neg h0]
    split
    · rename_i cached heq
      rcases hmiss with hmiss | hmiss
      · rw [hmiss] at heq
        exact absurd heq (by simp)
      · rw [if_neg hmiss]
        exact h
    · exact h
  · rw [h]
    simp only []
    simp [AVLTree.get_stats, h0]

/-- Two consecutive `get_stats` calls with the same argument and no
intervening insert: the second call returns exactly the first call's pair. -/
theorem get_stats_repeat (t : AVLTree) (ln : Option ℤ) :
    (t.get_stats ln).2.get_stats ln = t.get_stats ln := by
  by_cases h0 : t.count_values = 0
  · have h1 : t.get_stats ln = (.ok emptyStats, t) := by
      unfold AVLTree.get_stats
      rw [if_pos h0]
    rw [h1]
    exact h1
  · cases hc : t.stats_cache with
    | none =>
      have h1 : t.get_stats ln = computeStats t ln := by
        unfold AVLTree.get_stats
        rw [if_neg h0, hc]
      rw [h1]
      exact computeStats_repeat t ln h0 (Or.inl hc)
    | some c =>
      by_cases hl : t.cache_last_n = ln
      · have h1 : t.get_stats ln = (.ok c, t) := by
          simp [AVLTree.get_stats, h0, hc, hl]
        rw [h1]
        exact h1
      · have h1 : t.get_stats ln = computeStats t ln := by
          simp [AVLTree.get_stats, h0, hc, hl]
        rw [h1]
        exact computeStats_repeat t ln h0 (Or.inr hl)

/-! ## Database-level lemmas. -/

/-- The six successive `bst.get_stats(last_n)` calls of `Database.get_stats`
collapse to a single call: after the first, every repeat returns the same
pair, and reassembling the six projected fields is the identity. -/
theorem sixStatsCalls_eq (bst : AVLTree) (n : ℤ) :
    sixStatsCalls bst n = bst.get_stats (some n) := by
  rcases hcases : bst.get_stats (some n) with ⟨res, t1⟩
  unfold sixStatsCalls
  rw [hcases]
  cases res with
  | error e => rfl
  | ok s =>
    have h2 : t1.get_stats (some n) = (.ok s, t1) := by
      have h := get_stats_repeat bst (some n)
      rw [hcases] at h
      exact h
    simp only [h2]

theorem storeLookup_mem {st : List (String × AVLTree)} {s : String} {t : AVLTree}
    (h : storeLookup st s = some t) : (s, t) ∈ st := by
  induction st with
  | nil => simp [storeLookup] at h
  | cons p rest ih =>
    rcases p with ⟨ps, pt⟩
    rw [storeLookup] at h
    split_ifs at h with hps
    · cases h
      subst hps
      exact List.mem_cons_self _ _
    · exact List.mem_cons_of_mem _ (ih h)

theorem mem_storeUpdate {st : List (String × AVLTree)} {s : String} {t : AVLTree}
    {p : String × AVLTree} (h : p ∈ storeUpdate st s t) : p.2 = t ∨ p ∈ st := by
  induction st with
  | nil =>
    rw [storeUpdate] at h
    rcases List.mem_singleton.mp h with rfl
    exact Or.inl rfl
  | cons q rest ih =>
    rcases q with ⟨qs, qt⟩
    rw [storeUpdate] at h
    split_ifs at h with hqs
    · rcases List.mem_cons.mp h with rfl | h2
      · exact Or.inl rfl
      · exact Or.inr (List.mem_cons_of_mem _ h2)
    · rcases List.mem_cons.mp h with rfl | h2
      · exact Or.inr (List.mem_cons_self _ _)
      · rcases ih h2 with h3 | h3
        · exact Or.inl h3
        · exact Or.inr (List.mem_cons_of_mem _ h3)

theorem mem_storeErase {st : List (String × AVLTree)} {s : String}
    {p : String × AVLTree} (h : p ∈ storeErase st s) : p ∈ st := by
  induction st with
  | nil => simp [storeErase] at h
  | cons q rest ih =>
    rcases q with ⟨qs, qt⟩
    rw [storeErase] at h
    split_ifs at h with hqs
    · exact List.mem_cons_of_mem _ h
    · rcases List.mem_cons.mp h with rfl | h2
      · exact List.mem_cons_self _ _
      · exact List.mem_cons_of_mem _ (ih h2)

theorem wfCounts_empty : WFCounts emptyAVL := ⟨rfl, rfl⟩

theorem wfCounts_foldl (vs : List ℚ) (t : AVLTree) (h : WFCounts t) :
    WFCounts (vs.foldl AVLTree.insert t) := by
  obtain ⟨h1, h2⟩ := h
  constructor
  · rw [foldl_insert_count, foldl_insert_log, List.length_append, h1]
  · show (toList (vs.foldl AVLTree.insert t).root).length = _
    rw [foldl_insert_root, foldl_insert_count,
      (toList_buildRoot vs t.root).length_eq, List.length_append]
    have h3 : (toList t.root).length = t.count_values := h2
    omega

theorem foldl_insert_cache (vs : List ℚ) (t : AVLTree) (hne : vs ≠ []) :
    (vs.foldl AVLTree.insert t).stats_cache = none := by
  rcases List.eq_nil_or_concat vs with rfl | ⟨ws, w, rfl⟩
  · exact absurd rfl hne
  · rw [List.concat_eq_append, List.foldl_append]
    rfl

theorem computeStats_fst_ne_empty (t : AVLTree) (ln : Option ℤ) :
    (computeStats t ln).1 ≠ .ok emptyStats := by
  rcases computeStats_cases t ln with h | ⟨s, h, hsize⟩
  · rw [h]
    intro hcon
    exact Except.noConfusion hcon
  · rw [h]
    intro hcon
    have hse : s = emptyStats := Except.ok.inj hcon
    rw [hse] at hsize
    exact hsize rfl

theorem get_stats_fst_ne_empty (t : AVLTree) (ln : Option ℤ)
    (h0 : t.count_values ≠ 0) (hcok : CacheSizeOK t) :
    (t.get_stats ln).1 ≠ .ok emptyStats := by
  unfold AVLTree.get_stats
  rw [if_neg h0]
  cases hc : t.stats_cache with
  | none => exact computeStats_fst_ne_empty t ln
  | some c =>
    by_cases hl : t.cache_last_n = ln
    · show (if t.cache_last_n = ln then ((Except.ok c : Except PyErr StatsResult), t)
        else computeStats t ln).1 ≠ _
      rw [if_pos hl]
      intro hcon
      have hce : c = emptyStats := Except.ok.inj hcon
      rw [hce] at hc
      exact hcok emptyStats hc rfl
    · show (if t.cache_last_n = ln then ((Except.ok c : Except PyErr StatsResult), t)
        else computeStats t ln).1 ≠ _
      rw [if_neg hl]
      exact computeStats_fst_ne_empty t ln

theorem get_stats_snd_cacheOK (t : AVLTree) (ln : Option ℤ) (h : CacheSizeOK t) :
    CacheSizeOK (t.get_stats ln).2 := by
  rcases get_stats_snd_eq t ln with he | he
  · rw [he]
    exact h
  · rw [he]
    rcases computeStats_cases t ln with hc | ⟨s, hc, hsize⟩
    · rw [hc]
      exact h
    · rw [hc]
      intro s2 hs2
      have : s = s2 := Option.some.inj hs2
      rw [← this]
      exact hsize

theorem storeGood_addBatch (db : Database) (sym : String) (values : List PyVal)
    (h : StoreGood db) : StoreGood (db.add_batch sym values).2 := by
  unfold Database.add_batch
  split_ifs with h1 h2 h3 h4
  · exact h
  · exact h
  · exact h
  · exact h
  · split
    · exact h
    · show StoreGood ⟨storeUpdate db.data_store sym
        (values.foldl (fun t v => t.insert v.toQ)
          ((storeLookup db.data_store sym).getD emptyAVL))⟩
      intro p hp
      rcases mem_storeUpdate hp with hpt | hpin
      · have hWF : WFCounts ((storeLookup db.data_store sym).getD emptyAVL) := by
          cases hlook : storeLookup db.data_store sym with
          | none => exact wfCounts_empty
          | some u =>
            have := h _ (storeLookup_mem hlook)
            exact this.1
        have hfold : values.foldl (fun t v => t.insert v.toQ)
            ((storeLookup db.data_store sym).getD emptyAVL)
            = (values.map PyVal.toQ).foldl AVLTree.insert
              ((storeLookup db.data_store sym).getD emptyAVL) := by
          rw [List.foldl_map]
        rw [hpt, hfold]
        refine ⟨wfCounts_foldl _ _ hWF, ?_, ?_⟩
        · rw [foldl_insert_count, List.length_map]
          have : values.length ≠ 0 := h3
          omega
        · intro s hs
          rw [foldl_insert_cache] at hs
          · exact Option.noConfusion hs
          · intro hmapnil
            exact h3 (by rw [List.map_eq_nil.mp hmapnil]; rfl)
      · exact h p hpin

theorem storeGood_getStats (db : Database) (sym : String) (k : ℤ)
    (h : StoreGood db) : StoreGood (db.get_stats sym k).2 := by
  unfold Database.get_stats
  by_cases hk : k > MAX_K_VALUE
  · rw [if_pos hk]
    exact h
  · rw [if_neg hk]
    split
    · exact h
    · rename_i bst hlook
      have hbst := h _ (storeLookup_mem hlook)
      by_cases hneg : k < 0
      · rw [if_pos hneg]
        split_ifs with h0 <;> exact h
      · rw [if_neg hneg]
        show StoreGood ((match sixStatsCalls bst ((10 : ℤ) ^ k.toNat) with
          | (Except.error e, t) =>
              (Except.error e, (⟨storeUpdate db.data_store sym t⟩ : Database))
          | (Except.ok s, t) =>
              (Except.ok s, (⟨storeUpdate db.data_store sym t⟩ : Database))).2)
        have hgood : ∀ (e : Except PyErr StatsResult) (t : AVLTree),
            sixStatsCalls bst ((10 : ℤ) ^ k.toNat) = (e, t) →
            WFCounts t ∧ 1 ≤ t.count_values ∧ CacheSizeOK t := by
          intro e t heq
          rw [sixStatsCalls_eq] at heq
          have ht : (bst.get_stats (some ((10 : ℤ) ^ k.toNat))).2 = t :=
            congrArg Prod.snd heq
          obtain ⟨hroot, horder, hcount, _⟩ :=
            get_stats_snd_fields bst (some ((10 : ℤ) ^ k.toNat))
          rw [ht] at hroot horder hcount
          obtain ⟨⟨hw1, hw2⟩, hw3, hw4⟩ := hbst
          refine ⟨⟨?_, ?_⟩, ?_, ?_⟩
          · rw [hcount, horder, hw1]
          · show (toList t.root).length = _
            rw [hroot, hcount]
            exact hw2
          · rw [hcount]
            exact hw3
          · have hck := get_stats_snd_cacheOK bst (some ((10 : ℤ) ^ k.toNat)) hw4
            rw [ht] at hck
            exact hck
        split
        · rename_i e t heq
          intro p hp
          rcases mem_storeUpdate hp with hpt | hpin
          · rw [hpt]
            exact hgood (.error e) t heq
          · exact h p hpin
        · rename_i s t heq
          intro p hp
          rcases mem_storeUpdate hp with hpt | hpin
          · rw [hpt]
            exact hgood (.ok s) t heq
          · exact h p hpin

theorem storeGood_execOp (db : Database) (op : DbOp) (h : StoreGood db) :
    StoreGood (execOp db op) := by
  cases op with
  | addBatch s vs => exact storeGood_addBatch db s vs h
  | getStats s k => exact storeGood_getStats db s k h
  | getValues s =>
    show StoreGood (db.get_values s).2
    unfold Database.get_values
    split
    · exact h
    · exact h
  | deleteSymbol s =>
    show StoreGood (db.delete_symbol s).2
    unfold Database.delete_symbol
    split
    · intro p hp
      exact h p (mem_storeErase hp)
    · exact h
  | clear =>
    intro p hp
    exact absurd hp (List.not_mem_nil p)
  | getSymbols => exact h

theorem reachable_storeGood {db : Database} (h : Reachable db) : StoreGood db := by
  obtain ⟨ops, rfl⟩ := h
  have hgen : ∀ (ops : List DbOp) (d : Database), StoreGood d →
      StoreGood (ops.foldl execOp d) := by
    intro ops
    induction ops with
    | nil => intro d hd; exact hd
    | cons op rest ih =>
      intro d hd
      exact ih _ (storeGood_execOp d op hd)
  refine hgen ops ⟨[]⟩ ?_
  intro p hp
  exact absurd hp (List.not_mem_nil p)

/-! ## Claim C2 -/

theorem toList_buildRoot_perm (vs : List ℚ) : List.Perm (toList (buildRoot vs)) vs := by
  have h := toList_buildRoot vs .leaf
  simpa [toList] using h

/-- C2.  Sortedness and multiset preservation: for every sequence of inserted
values, the ascending export of the built tree is non-decreasing, its
multiset equals the multiset of inserted values, and its length equals the
number of insert calls. -/
theorem C2_sortedness_multiset (vs : List ℚ) :
    ((buildAVL vs).get_all_values).Pairwise (· ≤ ·) ∧
    (((buildAVL vs).get_all_values : List ℚ) : Multiset ℚ) = (vs : Multiset ℚ) ∧
    ((buildAVL vs).get_all_values).length = vs.length := by
  have hroot : (buildAVL vs).get_all_values = toList (buildRoot vs) := by
    show toList (buildAVL vs).root = _
    rw [buildAVL_root]
  obtain ⟨hh, hb, ho, hp⟩ := buildRoot_inv vs
  refine ⟨?_, ?_, ?_⟩
  · rw [hroot]
    exact toList_pairwise ho
  · rw [hroot]
    exact Multiset.coe_eq_coe.mpr (toList_buildRoot_perm vs)
  · rw [hroot]
    exact (toList_buildRoot_perm vs).length_eq

/-! ## Claim C3 -/

theorem get_height_eq_realHeight {t : AVLNode} (h : HeightOk t) :
    get_height t = realHeight t := by
  induction t with
  | leaf => rfl
  | node l x c ht r ihl ihr =>
    obtain ⟨hl, hr, hh⟩ := show _ ∧ _ ∧ _ from h
    simp only [get_height_node, realHeight]
    rw [hh, ihl hl, ihr hr]

theorem heightOk_real {t : AVLNode} (h : HeightOk t) : HeightFieldsReal t := by
  induction t with
  | leaf => trivial
  | node l x c ht r ihl ihr =>
    obtain ⟨hl, hr, hh⟩ := show _ ∧ _ ∧ _ from h
    exact ⟨ihl hl, ihr hr, by
      rw [hh, get_height_eq_realHeight hl, get_height_eq_realHeight hr]⟩

theorem balanced_real {t : AVLNode} (hh : HeightOk t) (hb : BalancedT t) :
    BalancedReal t := by
  induction t with
  | leaf => trivial
  | node l x c ht r ihl ihr =>
    obtain ⟨hhl, hhr, _⟩ := show _ ∧ _ ∧ _ from hh
    obtain ⟨hbl, hbr, h1, h2⟩ := show _ ∧ _ ∧ _ ∧ _ from hb
    rw [get_height_eq_realHeight hhl, get_height_eq_realHeight hhr] at h1 h2
    exact ⟨ihl hhl hbl, ihr hhr hbr, h1, h2⟩

/-- C3.  AVL structural invariant: after any sequence of inserts from the
empty tree, every node's actual child heights differ by at most one, every
stored height field is one plus the maximum of its children's actual heights,
the in-order node keys are strictly ascending, and the rotation operations
preserve the in-order key order on any tree. -/
theorem C3_avl_invariant (vs : List ℚ) :
    BalancedReal (buildRoot vs) ∧
    HeightFieldsReal (buildRoot vs) ∧
    (inorderKeys (buildRoot vs)).Pairwise (· < ·) ∧
    (∀ t : AVLNode, inorderKeys (left_rotate t) = inorderKeys t ∧
      inorderKeys (right_rotate t) = inorderKeys t) := by
  obtain ⟨hh, hb, ho, hp⟩ := buildRoot_inv vs
  exact ⟨balanced_real hh hb, heightOk_real hh, inorderKeys_pairwise ho,
    fun t => ⟨inorderKeys_left_rotate t, inorderKeys_right_rotate t⟩⟩

/-! ## Claim C4 -/

/-- C4.  Welford accumulator invariant after a non-empty build: the running
count, sum, minimum, maximum, last value and mean are correct, the mean is
exactly `sum / count`, and in exact arithmetic `sum_of_squares / count` is
the population variance of all inserted values (zero for a single value). -/
theorem C4_welford (vs : List ℚ) (hne : vs ≠ []) :
    (buildAVL vs).count_values = vs.length ∧
    (buildAVL vs).sum_values = vs.sum ∧
    (∃ m : ℚ, (buildAVL vs).min_value = (m : WithTop ℚ) ∧ m ∈ vs ∧ ∀ x ∈ vs, m ≤ x) ∧
    (∃ M : ℚ, (buildAVL vs).max_value = (M : WithBot ℚ) ∧ M ∈ vs ∧ ∀ x ∈ vs, x ≤ M) ∧
    (buildAVL vs).last_inserted_value = some (vs.getLast hne) ∧
    (buildAVL vs).mean_value
      = (buildAVL vs).sum_values / ((buildAVL vs).count_values : ℚ) ∧
    (1 < (buildAVL vs).count_values →
      (buildAVL vs).sum_of_squares / ((buildAVL vs).count_values : ℚ) = popVar vs) ∧
    ((buildAVL vs).count_values = 1 → (buildAVL vs).sum_of_squares = 0) := by
  obtain ⟨hsum, hmean, hlast, hsos, hmin, hmax⟩ := buildAVL_stats vs hne
  have hcount := buildAVL_count vs
  refine ⟨hcount, hsum, hmin, hmax, hlast, ?_, ?_, ?_⟩
  · rw [hmean, hsum, hcount]
  · intro _
    rw [hsos, hcount, popVar]
  · intro h1
    rw [hcount] at h1
    obtain ⟨v, rfl⟩ := List.length_eq_one.mp h1
    rw [hsos]
    simp

theorem C4_welford_witness :
    ([ (1 : ℚ), 2 ] ≠ []) ∧
    (buildAVL [(1 : ℚ), 2]).count_values = 2 ∧
    (1 < (buildAVL [(1 : ℚ), 2]).count_values →
      (buildAVL [(1 : ℚ), 2]).sum_of_squares
        / ((buildAVL [(1 : ℚ), 2]).count_values : ℚ) = popVar [(1 : ℚ), 2]) := by
  have h := C4_welford [(1 : ℚ), 2] (by decide)
  exact ⟨by decide, h.1, h.2.2.2.2.2.2.1⟩

/-! ## Claim C5 -/

/-- C5.  Cache transparency: a repeated `get_stats` with the same window and
no intervening insert returns the identical result; an insert clears the
cache, and the next `get_stats` is a fresh computation over the current log;
a `get_stats` whose requested window differs from the cached one is a fresh
computation (never the cached entry); the empty series always yields the
explicit empty result. -/
theorem C5_cache_transparency (t : AVLTree) (ln : Option ℤ) (v : ℚ) :
    ((t.get_stats ln).2.get_stats ln).1 = (t.get_stats ln).1 ∧
    (t.insert v).stats_cache = none ∧
    (t.insert v).get_stats ln = computeStats (t.insert v) ln ∧
    (t.count_values ≠ 0 → t.cache_last_n ≠ ln → t.get_stats ln = computeStats t ln) ∧
    (t.count_values = 0 → t.get_stats ln = (.ok emptyStats, t)) := by
  refine ⟨congrArg Prod.fst (get_stats_repeat t ln),
    (AVLTree.insert_cache t v).1, ?_, ?_, ?_⟩
  · unfold AVLTree.get_stats
    rw [if_neg (show ¬ (t.insert v).count_values = 0 from by
      rw [AVLTree.insert_count]; omega), (AVLTree.insert_cache t v).1]
  · intro h0 hln
    unfold AVLTree.get_stats
    rw [if_neg h0]
    cases hc : t.stats_cache with
    | none => rfl
    | some c =>
      show (if t.cache_last_n = ln then ((Except.ok c : Except PyErr StatsResult), t)
        else computeStats t ln) = computeStats t ln
      rw [if_neg hln]
  · intro h0
    unfold AVLTree.get_stats
    rw [if_pos h0]

theorem C5_cache_transparency_witness :
    ((buildAVL [(1 : ℚ), 2]).count_values ≠ 0) ∧
    ((buildAVL [(1 : ℚ), 2]).cache_last_n ≠ some 10) ∧
    (buildAVL [(1 : ℚ), 2]).get_stats (some 10)
      = computeStats (buildAVL [(1 : ℚ), 2]) (some 10) :=
  ⟨by decide, by decide,
    (C5_cache_transparency (buildAVL [(1 : ℚ), 2]) (some 10) 3).2.2.2.1
      (by decide) (by decide)⟩

/-! ## Claim C6 -/

theorem firstValueError_none_iff (values : List PyVal) :
    firstValueError values = none ↔
      ¬ ∃ v ∈ values, v = PyVal.nonNumeric ∨ ∃ q : ℚ, v = PyVal.num q ∧ q < 0 := by
  induction values with
  | nil => simp [firstValueError]
  | cons v rest ih =>
    cases v with
    | nonNumeric =>
      simp only [firstValueError]
      constructor
      · intro h
        exact absurd h (by simp)
      · intro h
        exact absurd ⟨PyVal.nonNumeric, List.mem_cons_self _ _, Or.inl rfl⟩ h
    | num q =>
      by_cases hq : q < 0
      · rw [firstValueError, if_pos hq]
        constructor
        · intro h
          exact absurd h (by simp)
        · intro h
          exact absurd ⟨PyVal.num q, List.mem_cons_self _ _, Or.inr ⟨q, rfl, hq⟩⟩ h
      · rw [firstValueError, if_neg hq]
        rw [ih]
        constructor
        · intro h hbad
          obtain ⟨w, hw, hbadw⟩ := hbad
          rcases List.mem_cons.mp hw with rfl | hw2
          · rcases hbadw with h1 | ⟨q2, h2, hq2⟩
            · exact PyVal.noConfusion h1
            · cases h2
              exact hq hq2
          · exact h ⟨w, hw2, hbadw⟩
        · intro h hbad
          obtain ⟨w, hw, hbadw⟩ := hbad
          exact h ⟨w, List.mem_cons_of_mem _ hw, hbadw⟩

/-- C6.  Batch validation with atomicity: `add_batch` raises exactly when the
symbol is too long, or the symbol is new while the symbol limit is reached,
or the batch is empty, or too large, or contains a non-numeric or negative
value; on any raise the store is exactly as before; on success the affected
symbol's series is extended by every batch element in order and nothing else
changes. -/
theorem C6_batch_validation (db : Database) (symbol : String) (values : List PyVal) :
    ((∃ e, (db.add_batch symbol values).1 = .error e) ↔
      (MAX_SYMBOLS_LENGTH < symbol.length ∨
       (MAX_SYMBOLS_COUNT ≤ db.data_store.length ∧
         storeLookup db.data_store symbol = none) ∨
       values = [] ∨
       MAX_TRADE_POINTS_COUNT < values.length ∨
       (∃ v ∈ values, v = PyVal.nonNumeric ∨ ∃ q : ℚ, v = PyVal.num q ∧ q < 0))) ∧
    ((∃ e, (db.add_batch symbol values).1 = .error e) →
      (db.add_batch symbol values).2 = db) ∧
    ((¬ ∃ e, (db.add_batch symbol values).1 = .error e) →
      (db.add_batch symbol values).2.data_store =
        storeUpdate db.data_store symbol
          (values.foldl (fun t v => t.insert v.toQ)
            ((storeLookup db.data_store symbol).getD emptyAVL))) := by
  unfold Database.add_batch
  split_ifs with h1 h2 h3 h4
  · refine ⟨⟨fun _ => Or.inl h1, fun _ => ⟨_, rfl⟩⟩, fun _ => rfl, fun hno => ?_⟩
    exact absurd ⟨_, rfl⟩ hno
  · refine ⟨⟨fun _ => Or.inr (Or.inl h2), fun _ => ⟨_, rfl⟩⟩, fun _ => rfl, fun hno => ?_⟩
    exact absurd ⟨_, rfl⟩ hno
  · refine ⟨⟨fun _ => Or.inr (Or.inr (Or.inl (List.length_eq_zero.mp h3))),
      fun _ => ⟨_, rfl⟩⟩, fun _ => rfl, fun hno => ?_⟩
    exact absurd ⟨_, rfl⟩ hno
  · refine ⟨⟨fun _ => Or.inr (Or.inr (Or.inr (Or.inl h4))), fun _ => ⟨_, rfl⟩⟩,
      fun _ => rfl, fun hno => ?_⟩
    exact absurd ⟨_, rfl⟩ hno
  · cases hfv : firstValueError values with
    | some e =>
      have hbad : ∃ v ∈ values, v = PyVal.nonNumeric ∨ ∃ q : ℚ, v = PyVal.num q ∧ q < 0 := by
        by_contra hno
        rw [← firstValueError_none_iff values] at hno
        rw [hfv] at hno
        exact Option.noConfusion hno
      refine ⟨⟨fun _ => Or.inr (Or.inr (Or.inr (Or.inr hbad))), fun _ => ⟨e, rfl⟩⟩,
        fun _ => rfl, fun hno => ?_⟩
      exact absurd ⟨e, rfl⟩ hno
    | none =>
      have hok : ¬ ∃ v ∈ values, v = PyVal.nonNumeric ∨ ∃ q : ℚ, v = PyVal.num q ∧ q < 0 :=
        (firstValueError_none_iff values).mp hfv
      refine ⟨⟨fun hviol => ?_, fun hdisj => ?_⟩, fun hviol => ?_, fun _ => rfl⟩
      · obtain ⟨e, he⟩ := hviol
        exact Except.noConfusion he
      · rcases hdisj with h | h | h | h | h
        · exact absurd h h1
        · exact absurd h h2
        · exact absurd (by rw [h]; rfl) h3
        · exact absurd h h4
        · exact absurd h hok
      · obtain ⟨e, he⟩ := hviol
        exact Except.noConfusion he

theorem C6_batch_validation_witness :
    (∃ e, ((⟨[]⟩ : Database).add_batch "ABCDE" [PyVal.num 1]).1 = .error e) ∧
    ((⟨[]⟩ : Database).add_batch "ABCDE" [PyVal.num 1]).2 = ⟨[]⟩ := by
  have h := C6_batch_validation ⟨[]⟩ "ABCDE" [PyVal.num 1]
  have herr : ∃ e, ((⟨[]⟩ : Database).add_batch "ABCDE" [PyVal.num 1]).1 = .error e :=
    h.1.mpr (Or.inl (by decide))
  exact ⟨herr, h.2.1 herr⟩

/-! ## Reduction of `Database.get_stats` to a single series call. -/

theorem db_get_stats_eq (db : Database) (sym : String) (k : ℤ) (bst : AVLTree)
    (hlook : storeLookup db.data_store sym = some bst)
    (hk0 : 0 ≤ k) (hk8 : k ≤ MAX_K_VALUE) :
    (db.get_stats sym k).1 = (bst.get_stats (some ((10 : ℤ) ^ k.toNat))).1 := by
  unfold Database.get_stats
  rw [if_neg (by omega)]
  simp only [hlook]
  rw [if_neg (by omega)]
  show (match sixStatsCalls bst ((10 : ℤ) ^ k.toNat) with
    | (Except.error e, t) =>
        ((Except.error e : Except PyErr StatsResult),
          (⟨storeUpdate db.data_store sym t⟩ : Database))
    | (Except.ok s, t) =>
        (Except.ok s, (⟨storeUpdate db.data_store sym t⟩ : Database))).1 = _
  rw [← sixStatsCalls_eq]
  rcases h6 : sixStatsCalls bst ((10 : ℤ) ^ k.toNat) with ⟨res, t⟩
  cases res <;> rfl

theorem buildAVL_get_stats (vs : List ℚ) (hne : vs ≠ []) (ln : Option ℤ) :
    (buildAVL vs).get_stats ln = computeStats (buildAVL vs) ln := by
  unfold AVLTree.get_stats
  rw [if_neg (by
      rw [buildAVL_count]
      exact fun h => hne (List.length_eq_zero.mp h)),
    (buildAVL_cache vs hne).1]

theorem lastWindow_all (l : List ℚ) (m : ℕ) (h : l.length ≤ m) :
    lastWindow l m = l := by
  rw [lastWindow_eq_drop]
  have h0 : l.length - m = 0 := by omega
  rw [h0, List.drop_zero]

theorem computeStats_fst_congr (t : AVLTree) (ln₁ ln₂ : Option ℤ)
    (h : windowValues t ln₁ = windowValues t ln₂) :
    (computeStats t ln₁).1 = (computeStats t ln₂).1 := by
  unfold computeStats
  rw [h]
  cases windowValues t ln₂ with
  | nil => rfl
  | cons v rest => rfl

/-! ## Claim C1 -/

/-- C1.  Window correctness: for a series built from `vs` and any exponent
`k ∈ [1, 8]`, `get_stats` succeeds and returns aggregates of exactly the
last `min(10^k, n)` values of the insertion log in arrival order: the
minimum, maximum, final element, arithmetic mean, population variance and
size of that window. -/
theorem C1_window_correctness (vs : List ℚ) (sym : String) (k : ℤ)
    (hne : vs ≠ []) (hk1 : 1 ≤ k) (hk8 : k ≤ 8) :
    ∃ s : StatsResult,
      (Database.get_stats ⟨[(sym, buildAVL vs)]⟩ sym k).1 = .ok s ∧
      s.size = some (min ((10 : ℕ) ^ k.toNat) vs.length) ∧
      WindowSpec s (lastWindow vs ((10 : ℕ) ^ k.toNat)) := by
  have hlook : storeLookup (⟨[(sym, buildAVL vs)]⟩ : Database).data_store sym
      = some (buildAVL vs) := by
    show storeLookup [(sym, buildAVL vs)] sym = _
    rw [storeLookup, if_pos rfl]
  have heq := db_get_stats_eq _ sym k _ hlook (by omega) hk8
  rw [heq, buildAVL_get_stats vs hne]
  have htn : ((10 : ℤ) ^ k.toNat).toNat = (10 : ℕ) ^ k.toNat := by
    rw [show ((10 : ℤ) ^ k.toNat) = (((10 : ℕ) ^ k.toNat : ℕ) : ℤ) by push_cast; ring]
    exact Int.toNat_natCast _
  have hnpos : (0 : ℤ) < (10 : ℤ) ^ k.toNat := by positivity
  have hlog : (buildAVL vs).insertion_order = vs := buildAVL_log vs
  obtain ⟨s, hcs, hws⟩ := computeStats_spec (buildAVL vs) ((10 : ℤ) ^ k.toNat) hnpos
    (by rw [hlog]; exact hne)
  rw [hlog, htn] at hws
  refine ⟨s, by rw [hcs], ?_, hws⟩
  have hsize := hws.2.2.2.2.2
  rw [hsize, lastWindow_length]

theorem C1_window_correctness_witness :
    ([(1 : ℚ), 2] ≠ []) ∧ ((1 : ℤ) ≤ 1) ∧ ((1 : ℤ) ≤ 8) ∧
    ∃ s : StatsResult,
      (Database.get_stats ⟨[("A", buildAVL [(1 : ℚ), 2])]⟩ "A" 1).1 = .ok s ∧
      s.size = some (min ((10 : ℕ) ^ (1 : ℤ).toNat) [(1 : ℚ), 2].length) ∧
      WindowSpec s (lastWindow [(1 : ℚ), 2] ((10 : ℕ) ^ (1 : ℤ).toNat)) :=
  ⟨by decide, by norm_num, by norm_num,
    C1_window_correctness [(1 : ℚ), 2] "A" 1 (by decide) (by norm_num) (by norm_num)⟩

/-! ## Claims C7 and C9: concrete boundary and end-to-end evaluations. -/

theorem toNat_ten_pow (m : ℕ) : ((10 : ℤ) ^ m).toNat = (10 : ℕ) ^ m := by
  rw [show ((10 : ℤ) ^ m) = (((10 : ℕ) ^ m : ℕ) : ℤ) by push_cast; ring]
  exact Int.toNat_natCast _

/-- C7.  What the code actually does at the exponent boundary: `k = 0` is
accepted without any error and returns statistics over the last `10^0 = 1`
value; `k = 9` raises the same `ValueError("Symbol not found")` used for
missing symbols rather than a distinct range error; an unknown symbol with
an in-range `k` raises that identical error. -/
theorem C7_exponent_behaviour :
    (∃ s : StatsResult,
      (Database.get_stats ⟨[("TEST", buildAVL [1])]⟩ "TEST" 0).1 = .ok s ∧
      s.size = some 1) ∧
    (Database.get_stats ⟨[("TEST", buildAVL [1])]⟩ "TEST" 9).1 =
      .error (.valueError "Symbol not found") ∧
    (Database.get_stats ⟨[("TEST", buildAVL [1])]⟩ "UNKNOWN" 3).1 =
      .error (.valueError "Symbol not found") := by
  refine ⟨?_, by decide, by decide⟩
  have hlook : storeLookup (⟨[("TEST", buildAVL [1])]⟩ : Database).data_store "TEST"
      = some (buildAVL [1]) := by
    show storeLookup [("TEST", buildAVL [1])] "TEST" = _
    rw [storeLookup, if_pos rfl]
  have heq := db_get_stats_eq _ "TEST" 0 _ hlook (by omega) (by
    show (0 : ℤ) ≤ 8
    norm_num)
  rw [heq, buildAVL_get_stats [1] (by simp)]
  obtain ⟨s, hcs, hws⟩ := computeStats_spec (buildAVL [1]) ((10 : ℤ) ^ (0 : ℤ).toNat)
    (by norm_num) (by rw [buildAVL_log]; simp)
  refine ⟨s, by rw [hcs], ?_⟩
  have hsize := hws.2.2.2.2.2
  rw [hsize, lastWindow_length, buildAVL_log]
  norm_num

/-- Evaluation of the single underlying series query for the end-to-end
example (window of 1000 covers all five values). -/
theorem aapl_stats_eval :
    ((buildAVL [150.1, 152.3, 151.0, 155.4, 149.8]).get_stats (some 1000)).1 =
      .ok { min := some 149.8, max := some 155.4, last := some 149.8,
            avg := some 151.72, var := some 4.1416, size := some 5 } := by
  norm_num [AVLTree.get_stats, computeStats, windowValues, pySliceLast, buildAVL,
    List.foldl, AVLTree.insert, emptyAVL, insertTree, fixup, left_rotate, right_rotate,
    get_height, List.getLast]

/-- For every `k ∈ [1, 8]` the end-to-end query returns the same result as
the window-1000 query: both windows are the whole five-element log. -/
theorem aapl_get_stats_k (k : ℤ) (hk1 : 1 ≤ k) (hk8 : k ≤ 8) :
    (Database.get_stats
        ⟨[("AAPL", buildAVL [150.1, 152.3, 151.0, 155.4, 149.8])]⟩ "AAPL" k).1 =
    ((buildAVL [150.1, 152.3, 151.0, 155.4, 149.8]).get_stats (some 1000)).1 := by
  have hlook : storeLookup
      (⟨[("AAPL", buildAVL [150.1, 152.3, 151.0, 155.4, 149.8])]⟩ : Database).data_store
      "AAPL" = some (buildAVL [150.1, 152.3, 151.0, 155.4, 149.8]) := by
    show storeLookup [("AAPL", buildAVL [150.1, 152.3, 151.0, 155.4, 149.8])] "AAPL" = _
    rw [storeLookup, if_pos rfl]
  have heq := db_get_stats_eq _ "AAPL" k _ hlook (by omega) hk8
  rw [heq, buildAVL_get_stats _ (by simp), buildAVL_get_stats _ (by simp)]
  apply computeStats_fst_congr
  rw [windowValues_some_pos _ _ (by positivity), windowValues_some_pos _ _ (by norm_num),
    buildAVL_log, lastWindow_all, lastWindow_all]
  · show [(150.1 : ℚ), 152.3, 151.0, 155.4, 149.8].length ≤ ((1000 : ℤ)).toNat
    simp
  · rw [toNat_ten_pow]
    have h1 : (10 : ℕ) ^ 1 ≤ 10 ^ k.toNat := Nat.pow_le_pow_right (by norm_num) (by omega)
    simp only [List.length_cons, List.length_nil]
    omega

/-- C9 counterexample: on the end-to-end example the code's variance is
`4.1416`, which is not the `4.1736` the claim states. -/
theorem C9_variance_counterexample :
    (Database.get_stats
        ⟨[("AAPL", buildAVL [150.1, 152.3, 151.0, 155.4, 149.8])]⟩ "AAPL" 3).1 =
      .ok { min := some 149.8, max := some 155.4, last := some 149.8,
            avg := some 151.72, var := some 4.1416, size := some 5 } ∧
    (4.1416 : ℚ) ≠ 4.1736 := by
  refine ⟨?_, by norm_num⟩
  rw [aapl_get_stats_k 3 (by norm_num) (by norm_num)]
  exact aapl_stats_eval

/-- C9 (amended).  End-to-end example with the variance the code computes:
for every exponent `k` in `[1, 8]`, `get_stats` returns
`min = 149.8, max = 155.4, last = 149.8, avg = 151.72, var = 4.1416,
size = 5`, and the ascending export is the sorted list of the five values. -/
theorem C9_end_to_end (k : ℤ) (hk1 : 1 ≤ k) (hk8 : k ≤ 8) :
    (Database.get_stats
        ⟨[("AAPL", buildAVL [150.1, 152.3, 151.0, 155.4, 149.8])]⟩ "AAPL" k).1 =
      .ok { min := some 149.8, max := some 155.4, last := some 149.8,
            avg := some 151.72, var := some 4.1416, size := some 5 } ∧
    (Database.get_values
        ⟨[("AAPL", buildAVL [150.1, 152.3, 151.0, 155.4, 149.8])]⟩ "AAPL").1 =
      .ok [149.8, 150.1, 151.0, 152.3, 155.4] := by
  constructor
  · rw [aapl_get_stats_k k hk1 hk8]
    exact aapl_stats_eval
  · norm_num [Database.get_values, storeLookup, AVLTree.get_all_values, buildAVL,
      List.foldl, AVLTree.insert, emptyAVL, insertTree, fixup, left_rotate, right_rotate,
      get_height, toList]

theorem C9_end_to_end_witness :
    ((1 : ℤ) ≤ 3) ∧ ((3 : ℤ) ≤ 8) ∧
    (Database.get_stats
        ⟨[("AAPL", buildAVL [150.1, 152.3, 151.0, 155.4, 149.8])]⟩ "AAPL" 3).1 =
      .ok { min := some 149.8, max := some 155.4, last := some 149.8,
            avg := some 151.72, var := some 4.1416, size := some 5 } :=
  ⟨by norm_num, by norm_num, (C9_end_to_end 3 (by norm_num) (by norm_num)).1⟩

/-! ## Claim C8 -/

theorem inorderKeys_incCount (t : AVLNode) (v : ℚ) :
    inorderKeys (incCount t v) = inorderKeys t := by
  induction t with
  | leaf => rfl
  | node l x c ht r ihl ihr =>
    simp only [incCount]
    split_ifs <;> simp only [inorderKeys, ihl, ihr]

theorem mem_keys_of_mem_build {vs : List ℚ} {v : ℚ} (hv : v ∈ vs) :
    v ∈ inorderKeys (buildRoot vs) :=
  mem_inorderKeys_of_mem_toList ((toList_buildRoot_perm vs).symm.subset hv)

theorem count_keys_eq_one {t : AVLNode} {v : ℚ} (ho : Ordered t)
    (hv : v ∈ inorderKeys t) : List.count v (inorderKeys t) = 1 := by
  have h1 : List.count v (inorderKeys t) ≤ 1 :=
    count_le_one_of_pairwise_lt (inorderKeys_pairwise ho) v
  have h2 : 0 < List.count v (inorderKeys t) := List.count_pos_iff.mpr hv
  omega

/-- C8.  Equal-key insert is shape-preserving: inserting a value already in
the tree performs exactly the multiplicity bump (`incCount`), which keeps
the shape (all `left`/`right`/`height` fields) and bumps only that key's
multiplicity; the insertion log and total size still advance, so inserting
the same value twice raises `total_size` by 2 and puts the value twice into
the ascending export while exactly one node holds that key. -/
theorem C8_equal_key_insert (vs : List ℚ) (v : ℚ) (hmem : v ∈ vs) :
    insertTree (buildAVL vs).root v = incCount (buildAVL vs).root v ∧
    stripCounts (incCount (buildAVL vs).root v) = stripCounts (buildAVL vs).root ∧
    multAt (incCount (buildAVL vs).root v) v = multAt (buildAVL vs).root v + 1 ∧
    (∀ w : ℚ, w ≠ v →
      multAt (incCount (buildAVL vs).root v) w = multAt (buildAVL vs).root w) ∧
    ((buildAVL vs).insert v).insertion_order = (buildAVL vs).insertion_order ++ [v] ∧
    ((buildAVL vs).insert v).total_size = (buildAVL vs).total_size + 1 ∧
    (((buildAVL vs).insert v).insert v).total_size = (buildAVL vs).total_size + 2 ∧
    List.count v ((((buildAVL vs).insert v).insert v).get_all_values)
      = List.count v ((buildAVL vs).get_all_values) + 2 ∧
    nodesWithKey ((((buildAVL vs).insert v).insert v).root) v = 1 := by
  obtain ⟨hh, hb, ho, hp⟩ := buildRoot_inv vs
  have hroot : (buildAVL vs).root = buildRoot vs := buildAVL_root vs
  have hkeys : v ∈ inorderKeys (buildRoot vs) := mem_keys_of_mem_build hmem
  have heqinc : insertTree (buildRoot vs) v = incCount (buildRoot vs) v :=
    insertTree_eq_incCount hh hb ho hkeys
  refine ⟨by rw [hroot]; exact heqinc, by rw [hroot]; exact stripCounts_incCount _ v,
    ?_, ?_, AVLTree.insert_order _ v, AVLTree.insert_total _ v, ?_, ?_, ?_⟩
  · rw [hroot]
    exact (multAt_incCount ho hkeys).1
  · intro w hw
    rw [hroot]
    exact (multAt_incCount ho hkeys).2 w hw
  · rw [AVLTree.insert_total, AVLTree.insert_total]
  · have hr2 : (((buildAVL vs).insert v).insert v).root
        = insertTree (insertTree (buildRoot vs) v) v := by
      rw [AVLTree.insert_root, AVLTree.insert_root, hroot]
    show List.count v (toList (((buildAVL vs).insert v).insert v).root) = _
    rw [hr2]
    have hperm1 := toList_insertTree (buildRoot vs) v
    have hperm2 := toList_insertTree (insertTree (buildRoot vs) v) v
    rw [hperm2.count_eq, List.count_cons_self, hperm1.count_eq, List.count_cons_self]
    show List.count v (toList (buildRoot vs)) + 1 + 1 = _
    rw [← hroot]
    rfl
  · have hr2 : (((buildAVL vs).insert v).insert v).root
        = insertTree (insertTree (buildRoot vs) v) v := by
      rw [AVLTree.insert_root, AVLTree.insert_root, hroot]
    rw [hr2]
    have hinv1 := insert_hb (buildRoot vs) v hh hb
    have hbnd1 : Ordered (insertTree (buildRoot vs) v) :=
      bnd_insertTree ho (fun a ha => nomatch ha) (fun b hb2 => nomatch hb2)
    have hkeys1 : v ∈ inorderKeys (insertTree (buildRoot vs) v) := by
      rw [heqinc, inorderKeys_incCount]
      exact hkeys
    rw [insertTree_eq_incCount hinv1.1 hinv1.2.1 hbnd1 hkeys1,
      nodesWithKey_eq_count, inorderKeys_incCount]
    exact count_keys_eq_one hbnd1 hkeys1

theorem C8_equal_key_insert_witness :
    ((1 : ℚ) ∈ [(1 : ℚ), 2]) ∧
    insertTree (buildAVL [(1 : ℚ), 2]).root 1 = incCount (buildAVL [(1 : ℚ), 2]).root 1 :=
  ⟨by norm_num, (C8_equal_key_insert [(1 : ℚ), 2] 1 (by norm_num)).1⟩

/-! ## Claim C10 -/

/-- C10.  Implicit non-emptiness of stored series: in every database state
reachable through the public interface, every stored series has at least one
inserted value; consequently `get_values` returns its non-empty ascending
export and `get_stats` never returns the all-`None` empty result — the
empty-series branch is unreachable through the public interface. -/
theorem C10_nonempty_series (db : Database) (sym : String) (t : AVLTree)
    (hreach : Reachable db) (hlook : storeLookup db.data_store sym = some t) :
    1 ≤ t.count_values ∧
    (db.get_values sym).1 = .ok t.get_all_values ∧
    t.get_all_values ≠ [] ∧
    ∀ k : ℤ, (db.get_stats sym k).1 ≠ .ok emptyStats := by
  have hsg : WFCounts t ∧ 1 ≤ t.count_values ∧ CacheSizeOK t :=
    reachable_storeGood hreach _ (storeLookup_mem hlook)
  obtain ⟨⟨hw1, hw2⟩, hw3, hw4⟩ := hsg
  refine ⟨hw3, ?_, ?_, ?_⟩
  · unfold Database.get_values
    simp only [hlook]
  · intro hnil
    rw [hnil] at hw2
    simp at hw2
    omega
  · intro k
    by_cases hk8 : k > MAX_K_VALUE
    · unfold Database.get_stats
      rw [if_pos hk8]
      intro hcon
      exact Except.noConfusion hcon
    · by_cases hkneg : k < 0
      · unfold Database.get_stats
        rw [if_neg hk8]
        simp only [hlook]
        rw [if_pos hkneg, if_neg (by omega)]
        intro hcon
        exact Except.noConfusion hcon
      · have hk8' : k ≤ MAX_K_VALUE := by omega
        rw [db_get_stats_eq db sym k t hlook (by omega) hk8']
        exact get_stats_fst_ne_empty t _ (by omega) hw4

theorem C10_nonempty_series_witness :
    1 ≤ (emptyAVL.insert 1).count_values ∧
    (([DbOp.addBatch "A" [PyVal.num 1]].foldl execOp ⟨[]⟩).get_values "A").1
      = .ok (emptyAVL.insert 1).get_all_values := by
  have hlook : storeLookup
      (([DbOp.addBatch "A" [PyVal.num 1]].foldl execOp ⟨[]⟩)).data_store "A"
      = some (emptyAVL.insert 1) := rfl
  have h := C10_nonempty_series ([DbOp.addBatch "A" [PyVal.num 1]].foldl execOp ⟨[]⟩)
    "A" (emptyAVL.insert 1) ⟨[DbOp.addBatch "A" [PyVal.num 1]], rfl⟩ hlook
  exact ⟨h.1, h.2.1⟩
